import Mathlib

/-!
Verification of the translation utilities of the django-translations
repository, a shallow embedding in Lean 4 of src/translations/utils.py.

The embedding mirrors the Python module function by function:

* string splitting on a separator (Python str.split) is implemented
  structurally over character lists so all definitions are executable;
* settings.LANGUAGES is a list of (code, name) pairs; the ambient active
  language (django.utils.translation.get_language) is an explicit argument;
* the relations hierarchy (nested Python dicts with keys included and
  relations) is the mutual inductive HNode and HList, an insertion-ordered
  association structure like a Python dict;
* model classes are indices into a schema of model descriptors
  (content-type id, Translatable subclass flag, translatable field names,
  names of fields declared in model meta); model instances live on a heap
  and are referred to by index, so that the in-place mutation performed by
  apply_translations and the by-reference registration of instances in the
  instance groups are both observable;
* fallible Python code (raised exceptions) returns Except Err;
* the Translation model table is a list of records, and the delete and
  bulk_create calls of update_translations become list operations.
-/

/-! Section: Python value and error domain -/
/-- Exceptions raised by the Python module, one constructor per distinct
exception site: ValueError for an unsupported language, TypeError for an
invalid entity, TypeError for a non-Translatable model, FieldDoesNotExist
from meta get_field, AttributeError from attribute access on an object
without that attribute, KeyError from a failed dict lookup. -/
inductive Err where
  | unsupportedLanguage
  | invalidEntity
  | notTranslatable
  | fieldDoesNotExist
  | attributeError
  | keyError
  deriving DecidableEq

/-! Section: Python str.split, specialised to the two separators the module uses
(LOOKUP_SEP, which Django defines as two underscores, and the dash used by
language codes). Implemented structurally over character lists so that it
computes by kernel reduction. -/
/-- Split a character list on a two-character separator, Python-style:
leftmost non-overlapping matches, keeping empty segments. The accumulator
holds the current segment reversed. -/
def splitSep2 (a b : Char) : List Char → List Char → List (List Char)
  | acc, [] => [acc.reverse]
  | acc, c :: d :: rest =>
    if c = a ∧ d = b then acc.reverse :: splitSep2 a b [] rest
    else splitSep2 a b (c :: acc) (d :: rest)
  | acc, [c] => [(c :: acc).reverse]

/-- Split a character list on a one-character separator, Python-style. -/
def splitSep1 (a : Char) : List Char → List Char → List (List Char)
  | acc, [] => [acc.reverse]
  | acc, c :: rest =>
    if c = a then acc.reverse :: splitSep1 a [] rest
    else splitSep1 a (c :: acc) rest

/-- Python relation.split(LOOKUP_SEP) with LOOKUP_SEP the double
underscore. -/
def pySplitUnderscore (s : String) : List String :=
  (splitSep2 '_' '_' [] s.data).map List.asString

/-- Python lang.split with a dash separator. -/
def pySplitDash (s : String) : List String :=
  (splitSep1 '-' [] s.data).map List.asString

/-! Section: 4.1 Language Normalizer: _get_standard_language -/
/-- Python truthiness of an optional string: None and the empty string are
falsy, everything else is truthy. -/
def pyTruthy : Option String → Bool
  | none => false
  | some s => s ≠ ""

/-- The registry scan loop of _get_standard_language. Walks
settings.LANGUAGES in declaration order carrying the code_exists flag;
stops (with lang_exists true) as soon as the exact tag matches, and only
records, without stopping, that the unaccented code was seen. Returns the
final pair (lang_exists, code_exists). -/
def langScan (lang code : String) : List (String × String) → Bool → Bool × Bool
  | [], codeExists => (false, codeExists)
  | (c, _) :: rest, codeExists =>
    if lang = c then (true, codeExists)
    else langScan lang code rest (codeExists || (code = c))

/-- Embedding of _get_standard_language. A falsy lang argument is replaced
by the ambient active language; the code is the tag up to the first dash;
the registry is scanned by langScan; the exact tag wins, then the code,
otherwise ValueError. -/
def _get_standard_language (registry : List (String × String)) (active : String)
    (lang0 : Option String) : Except Err String :=
  let lang := match lang0 with
    | some s => if s = "" then active else s
    | none => active
  let code := (pySplitDash lang).headD ""
  let scan := langScan lang code registry false
  if scan.1 then .ok lang
  else if scan.2 then .ok code
  else .error .unsupportedLanguage

/-! Section: 4.2 Relation Hierarchy Builder: _get_relations_hierarchy

The Python hierarchy is a nested dict mapping a relation name to a dict
with keys included (bool) and relations (the nested hierarchy). Python
dicts are insertion ordered, so the embedding is an ordered association
structure, given as a pair of mutual inductives. -/
mutual
inductive HNode where
  | mk (included : Bool) (relations : HList)
  deriving DecidableEq
inductive HList where
  | nil
  | cons (name : String) (node : HNode) (rest : HList)
  deriving DecidableEq
end

def HNode.included : HNode → Bool
  | .mk b _ => b

def HNode.relations : HNode → HList
  | .mk _ r => r

/-- Dict lookup, first match wins (keys are unique in every dict the code
builds, since insertion goes through setdefault). -/
def HList.find : HList → String → Option HNode
  | .nil, _ => none
  | .cons a n rest, key => if a = key then some n else rest.find key

/-- Dict item assignment for a key that is already present: replace the
first entry with that key, applying f to the stored node. -/
def HList.updateWith : HList → String → (HNode → HNode) → HList
  | .nil, _, _ => .nil
  | .cons a n rest, key, f =>
    if a = key then .cons a (f n) rest else .cons a n (rest.updateWith key f)

/-- Append a fresh entry at the end, as Python dict insertion does. -/
def HList.append1 : HList → String → HNode → HList
  | .nil, key, d => .cons key d .nil
  | .cons a n rest, key, d => .cons a n (rest.append1 key d)

/-- Python dict setdefault: keep the entry if the key is present, otherwise
insert the default at the end. -/
def HList.setdefault (h : HList) (key : String) (d : HNode) : HList :=
  match h.find key with
  | some _ => h
  | none => h.append1 key d

/-- Embedding of the inner _fill_hierarchy of _get_relations_hierarchy:
setdefault a node for the first segment, then either mark it included (last
segment) or recurse into its relations dict with the remaining segments. -/
def _fill_hierarchy (h : HList) : List String → HList
  | [] => h
  | root :: nest =>
    let h1 := h.setdefault root (.mk false .nil)
    match nest with
    | [] => h1.updateWith root (fun n => .mk true n.relations)
    | _ :: _ => h1.updateWith root (fun n => .mk n.included (_fill_hierarchy n.relations nest))

/-- Embedding of _get_relations_hierarchy: start from the empty dict and
fill it with each relation split on the double-underscore separator. -/
def _get_relations_hierarchy (relations : List String) : HList :=
  relations.foldl (fun h r => _fill_hierarchy h (pySplitUnderscore r)) .nil

/-- Navigate a hierarchy along a nonempty path of segment names and report
the included flag of the node reached, if any. -/
def includedAt : HList → List String → Option Bool
  | _, [] => none
  | h, k :: q =>
    match h.find k with
    | none => none
    | some n =>
      match q with
      | [] => some n.included
      | _ :: _ => includedAt n.relations q

/-- q is a proper prefix of p (shorter, and an initial segment). -/
def strictPrefixOf (q p : List String) : Bool :=
  q.isPrefixOf p && decide (q.length < p.length)

/-! Section: _get_reverse_relation

Relation metadata for the reverse-relation computation: per model (an index
into the table) an association list from field name to the field record,
which carries the related_query_name of the remote field (remote_field.name
in Django) and the related model. -/
structure RelField where
  remoteName : String
  relatedModel : Nat
  deriving DecidableEq

abbrev RelMeta := List (List (String × RelField))

/-- Association-list lookup with string keys (Python dict read access). -/
def lookupA {β : Type} : List (String × β) → String → Option β
  | [], _ => none
  | (k, v) :: rest, key => if k = key then some v else lookupA rest key

/-- Django model meta get_field: resolve a field name on a model or raise
FieldDoesNotExist. -/
def getField (meta : RelMeta) (m : Nat) (name : String) : Except Err RelField :=
  match lookupA (meta.getD m []) name with
  | some f => .ok f
  | none => .error .fieldDoesNotExist

/-- Embedding of _get_reverse_relation on the already split relation parts:
resolve the first part on the model, take the declared reverse name of that
relation, and for a deeper relation recurse into the related model with the
remaining parts and join with the double-underscore separator, reverse of
the branch first. The empty list cannot arise from a split; it is mapped to
the field error the Python indexing failure would become. -/
def _get_reverse_relation (meta : RelMeta) (m : Nat) : List String → Except Err String
  | [] => .error .fieldDoesNotExist
  | root :: branch =>
    match getField meta m root with
    | .error e => .error e
    | .ok field =>
      match branch with
      | [] => .ok field.remoteName
      | _ :: _ =>
        match _get_reverse_relation meta field.relatedModel branch with
        | .error e => .error e
        | .ok branchReverse => .ok (branchReverse ++ "__" ++ field.remoteName)

/-- Embedding of _get_reverse_relation on a dotted relation string. -/
def reverseRelationOf (meta : RelMeta) (m : Nat) (relation : String) : Except Err String :=
  _get_reverse_relation meta m (pySplitUnderscore relation)

/-- The declared reverse name of each single hop along a path, walked
innermost last: hop i is resolved against the model reached after hops
before i. -/
def hopReverseNames (meta : RelMeta) (m : Nat) : List String → Except Err (List String)
  | [] => .ok []
  | root :: branch =>
    match getField meta m root with
    | .error e => .error e
    | .ok field =>
      match hopReverseNames meta field.relatedModel branch with
      | .error e => .error e
      | .ok rest => .ok (field.remoteName :: rest)

/-- Join nonempty pieces with the double-underscore separator. -/
def joinUnder : List String → String
  | [] => ""
  | [x] => x
  | x :: rest => x ++ "__" ++ joinUnder rest

/-! Section: 4.3 Entity Graph Walker: _get_entity_details and _get_instance_groups

Model instances live on a heap and are denoted by their index, so that
in-place mutation and by-reference registration are observable. A relation
attribute of an instance is absent (getattr default None), a single related
instance, or a manager holding a list of related instances; prefetching is
a pure no-op in the embedding since loading does not change the value
read. Entities, as Python values, may also be non-instances: an opaque
non-iterable scalar or a list of arbitrary values. -/
mutual
def sizeN : HNode → Nat
  | .mk _ rs => 1 + sizeH rs
def sizeH : HList → Nat
  | .nil => 0
  | .cons _ n rest => 1 + sizeN n + sizeH rest
end

@[simp] def sizeH_nil : sizeH .nil = 0 := rfl

@[simp] def sizeH_cons (k : String) (n : HNode) (r : HList) :
    sizeH (.cons k n r) = 1 + sizeN n + sizeH r := rfl

@[simp] def sizeN_eq (n : HNode) : sizeN n = 1 + sizeH n.relations := by
  cases n
  rfl

inductive RelValue where
  | null
  | single (r : Nat)
  | many (rs : List Nat)
  deriving DecidableEq

structure Obj where
  model : Nat
  objId : Nat
  attrs : List (String × String)
  rels : List (String × RelValue)
  deriving DecidableEq

structure ModelD where
  ctId : Nat
  translatable : Bool
  tfields : List String
  relNames : List String
  deriving DecidableEq

structure Env where
  schema : List ModelD
  heap : List Obj
  deriving DecidableEq

inductive PyVal where
  | obj (r : Nat)
  | scalar (n : Int)
  | listLit (xs : List PyVal)

def dObj : Obj := ⟨0, 0, [], []⟩

def dModel : ModelD := ⟨0, false, [], []⟩

def deref (env : Env) (r : Nat) : Obj := env.heap.getD r dObj

def modelD (env : Env) (m : Nat) : ModelD := env.schema.getD m dModel

def lookupNat {β : Type} : List (Nat × β) → Nat → Option β
  | [], _ => none
  | (k, v) :: rest, key => if k = key then some v else lookupNat rest key

def upsertA {β : Type} : List (String × β) → String → β → List (String × β)
  | [], key, v => [(key, v)]
  | (k, w) :: rest, key, v =>
    if k = key then (k, v) :: rest else (k, w) :: upsertA rest key v

/-- The instance groups: content-type id to (instance id string to instance
reference), both levels insertion ordered like Python dicts. -/
abbrev Groups := List (Nat × List (String × Nat))

/-- Python groups.setdefault(content_type.id, empty dict). -/
def setdefaultOuter (groups : Groups) (ct : Nat) : Groups :=
  match lookupNat groups ct with
  | some _ => groups
  | none => groups ++ [(ct, [])]

/-- Python object_groups at str(obj.id) assignment, where object_groups is
the bucket groups holds under ct. -/
def registerObj (groups : Groups) (ct : Nat) (oid : String) (r : Nat) : Groups :=
  groups.map (fun p => if p.1 = ct then (p.1, upsertA p.2 oid r) else p)

/-- Embedding of _get_entity_details: a model instance is not iterable and
has its own type; a list takes the type of its first element provided that
element is a model instance, the empty list yielding no type; everything
else raises TypeError. -/
def _get_entity_details (env : Env) : PyVal → Except Err (Bool × Option Nat)
  | .obj r => .ok (false, some (deref env r).model)
  | .listLit [] => .ok (true, none)
  | .listLit (.obj r :: _) => .ok (true, some (deref env r).model)
  | .listLit (_ :: _) => .error .invalidEntity
  | .scalar _ => .error .invalidEntity

/-- The elements the walker iterates over: the list itself for an iterable
entity, the singleton for a single instance. -/
def elemsOf : PyVal → List PyVal
  | .obj r => [.obj r]
  | .listLit xs => xs
  | .scalar n => [.scalar n]

/-- The registration step of _fill_obj for one element: object_groups at
str(obj.id) assignment, raising AttributeError when the element is not an
instance and so has no id attribute. -/
def pyRegister (env : Env) (e : PyVal) (ct : Nat) (groups : Groups) :
    Except Err Groups :=
  match e with
  | .obj r => .ok (registerObj groups ct (toString (deref env r).objId) r)
  | _ => .error .attributeError

/-- Python getattr(obj, relation, None) for relation attributes: absent
attributes and non-instance receivers give None. -/
def relValueOf (env : Env) (e : PyVal) (rel : String) : RelValue :=
  match e with
  | .obj r => (lookupA (deref env r).rels rel).getD .null
  | _ => .null

mutual
/-- Embedding of the inner _fill_entity of _get_instance_groups: read the
entity details, stop on an empty collection, create the content-type bucket
and demand the Translatable capability when the level is included, then
walk the elements. -/
def _fill_entity (env : Env) (entity : PyVal) (hier : HList) (included : Bool)
    (groups : Groups) : Except Err Groups :=
  match _get_entity_details env entity with
  | .error e => .error e
  | .ok (_, none) => .ok groups
  | .ok (_, some m) =>
    let ct := (modelD env m).ctId
    let groups1 := if included then setdefaultOuter groups ct else groups
    if included ∧ ¬(modelD env m).translatable then .error .notTranslatable
    else _fill_objs env (elemsOf entity) m ct hier included groups1
termination_by (sizeH hier, 2, 0)

/-- The loop over the elements of the entity, calling _fill_obj on each. -/
def _fill_objs (env : Env) (elems : List PyVal) (m ct : Nat) (hier : HList)
    (included : Bool) (groups : Groups) : Except Err Groups :=
  match elems with
  | [] => .ok groups
  | e :: rest =>
    match _fill_obj env e m ct hier included groups with
    | .error err => .error err
    | .ok g => _fill_objs env rest m ct hier included g
termination_by (sizeH hier, 1, elems.length)

/-- Embedding of the inner _fill_obj: when the level is included, register
the element in the bucket under the string of its id (AttributeError when
the element has no id, that is, is not an instance), then walk the
relations named by the hierarchy node. -/
def _fill_obj (env : Env) (e : PyVal) (m ct : Nat) (hier : HList)
    (included : Bool) (groups : Groups) : Except Err Groups :=
  if included then
    match pyRegister env e ct groups with
    | .error err => .error err
    | .ok g => _fill_obj_relations env e m hier g
  else _fill_obj_relations env e m hier groups
termination_by (sizeH hier, 1, 0)

/-- The loop over the relation names of the hierarchy node: check the
relation exists on the model of the level (get_field raises otherwise),
read the relation value with getattr, skip None, and recurse into a single
related instance or into the list a manager holds, under the child node
with its own included flag. -/
def _fill_obj_relations (env : Env) (e : PyVal) (m : Nat) (hier : HList)
    (groups : Groups) : Except Err Groups :=
  match hier with
  | .nil => .ok groups
  | .cons rel detail rest =>
    if rel ∈ (modelD env m).relNames then
      match relValueOf env e rel with
      | .null => _fill_obj_relations env e m rest groups
      | .single r =>
        match _fill_entity env (.obj r) detail.relations detail.included groups with
        | .error err => .error err
        | .ok g => _fill_obj_relations env e m rest g
      | .many rs =>
        match _fill_entity env (.listLit (rs.map .obj)) detail.relations
            detail.included groups with
        | .error err => .error err
        | .ok g => _fill_obj_relations env e m rest g
    else .error .fieldDoesNotExist
termination_by (sizeH hier, 0, 0)
end

/-- Embedding of _get_instance_groups: the root call of _fill_entity on an
empty groups dict, with included true. -/
def _get_instance_groups (env : Env) (entity : PyVal) (hierarchy : HList) :
    Except Err Groups :=
  _fill_entity env entity hierarchy true []

/-! Section: Claim C7: InvalidEntity characterization -/
/-- Spec-side notion: the value is a single model instance. -/
def isModelInstance : PyVal → Bool
  | .obj _ => true
  | _ => false

/-- Spec-side notion: the value is iterable. -/
def isIterable : PyVal → Bool
  | .listLit _ => true
  | _ => false

/-- Spec-side notion: the value is a collection all of whose elements are
model instances (a homogeneous collection of instances). -/
def isHomogeneousCollection : PyVal → Bool
  | .listLit xs => xs.all isModelInstance
  | _ => false

/-- Test environment with one translatable model (content type 7, field
name) and one instance of it (id 1, name Hello) at heap index 0. -/
def envH : Env :=
  { schema := [⟨7, true, ["name"], []⟩]
  , heap := [⟨0, 1, [("name", "Hello")], []⟩] }

/-! Section: Claim C6: buckets only for included levels -/
mutual
def noneIncludedN : HNode → Bool
  | .mk b rs => !b && noneIncludedH rs
def noneIncludedH : HList → Bool
  | .nil => true
  | .cons _ n rest => noneIncludedN n && noneIncludedH rest
end

/-- Outcome of a walk that passes a level through without including it: the
groups are returned unchanged, or the walk fails with one of the two
errors a non-included level can raise (never NotTranslatable, never
AttributeError). -/
def PassThru (res : Except Err Groups) (g : Groups) : Prop :=
  res = .ok g ∨ res = .error .invalidEntity ∨ res = .error .fieldDoesNotExist

/-- Environment for the pass-through scenario of the spec: a translatable
root model (content type 1) with relation children to a NON-translatable
model (content type 2), which has relation items to a translatable model
(content type 3). Heap: the root instance 0 (id 1), the child instance 1
(id 5), the item instance 2 (id 9). -/
def envC : Env :=
  { schema :=
      [⟨1, true, ["name"], ["children"]⟩,
       ⟨2, false, [], ["items"]⟩,
       ⟨3, true, ["label"], []⟩]
  , heap :=
      [⟨0, 1, [("name", "Root")], [("children", .many [1])]⟩,
       ⟨1, 5, [], [("items", .many [2])]⟩,
       ⟨2, 9, [("label", "Item")], []⟩] }

/-! Section: Claim C8: the walker registers references and captures no snapshot -/
/-- Drop every attribute value from every heap object, keeping models, ids
and relations. If the walker captured any snapshot of field values, its
result would have to differ between an environment and its stripped form. -/
def stripObj (o : Obj) : Obj :=
  { o with attrs := [] }

def stripAttrs (env : Env) : Env :=
  { env with heap := env.heap.map stripObj }

/-! Section: 4.5 and 4.6: Translation store, apply_translations, update_translations -/
/-- One row of the Translation model: content type id, object id (stored as
a string), field name, language code, text. -/
structure Translation where
  content_type_id : Nat
  object_id : String
  field : String
  language : String
  text : String
  deriving DecidableEq

abbrev Store := List Translation

/-- The (content type id, object id) pairs enumerated by the query-building
loop of _get_translations, in iteration order. -/
def groupPairs (groups : Groups) : List (Nat × String) :=
  groups.flatMap (fun p => p.2.map (fun q => (p.1, q.1)))

/-- The row filter of the queryset _get_translations builds: language
equality ANDed with the disjunction of the (content type, object id)
identity terms. An empty disjunction is the empty Q object, which
constrains nothing and so matches every row of the language. -/
def translationFilter (groups : Groups) (lang : String) (t : Translation) : Bool :=
  t.language == lang &&
    (if (groupPairs groups).isEmpty then true
     else (groupPairs groups).any
       (fun p => t.content_type_id == p.1 && t.object_id == p.2))

/-- The disjunction part alone: the row belongs to one of the purview
instances. -/
def pairMatch (groups : Groups) (t : Translation) : Bool :=
  (groupPairs groups).any (fun p => t.content_type_id == p.1 && t.object_id == p.2)

/-- Embedding of _get_translations: normalize the language, then filter the
translation table by the language and the existential predicate of the
groups. The table is an explicit argument; row order is table order. -/
def _get_translations (store : Store) (registry : List (String × String))
    (active : String) (groups : Groups) (lang0 : Option String) :
    Except Err Store :=
  match _get_standard_language registry active lang0 with
  | .error e => .error e
  | .ok lang => .ok (store.filter (translationFilter groups lang))

/-- Python getattr(obj, field, None) for data attributes of the instance at
heap index r. -/
def attrOf (env : Env) (r : Nat) (f : String) : Option String :=
  lookupA (deref env r).attrs f

/-- Python setattr(obj, field, text), in place on the heap. -/
def setAttr (env : Env) (r : Nat) (f v : String) : Env :=
  let o := deref env r
  { env with heap := env.heap.set r { o with attrs := upsertA o.attrs f v } }

/-- The instance an override row is applied to: the dict lookups
groups of ct of oid. A missing key is a Python KeyError. -/
def ownerRef (groups : Groups) (t : Translation) : Option Nat :=
  match lookupNat groups t.content_type_id with
  | none => none
  | some objs => lookupA objs t.object_id

/-- The application loop of apply_translations: for each fetched row look
the owning instance up in the groups, and set the field to the row text
only if the concrete type of that instance still declares the field
translatable (the defensive re-check); otherwise the row is ignored. -/
def applyLoop (groups : Groups) : Env → List Translation → Except Err Env
  | env, [] => .ok env
  | env, t :: rest =>
    match lookupNat groups t.content_type_id with
    | none => .error .keyError
    | some objs =>
      match lookupA objs t.object_id with
      | none => .error .keyError
      | some r =>
        applyLoop groups
          (if t.field ∈ (modelD env (deref env r).model).tfields
           then setAttr env r t.field t.text else env) rest

/-- Embedding of apply_translations: build the hierarchy, build the groups,
fetch the rows, and apply them in place. -/
def apply_translations (env : Env) (store : Store)
    (registry : List (String × String)) (active : String) (entity : PyVal)
    (relations : List String) (lang0 : Option String) : Except Err Env :=
  match _get_instance_groups env entity (_get_relations_hierarchy relations) with
  | .error e => .error e
  | .ok groups =>
    match _get_translations store registry active groups lang0 with
    | .error e => .error e
    | .ok ts => applyLoop groups env ts

/-- The staging loop of update_translations: for every instance of every
bucket, for every translatable field name of its type, read the current
value and stage a new row unless the value is falsy (absent or empty). -/
def stageNew (env : Env) (groups : Groups) (lang : String) : Store :=
  groups.flatMap (fun p =>
    p.2.flatMap (fun q =>
      (modelD env (deref env q.2).model).tfields.filterMap (fun field =>
        match attrOf env q.2 field with
        | some text =>
          if text = "" then none
          else some ⟨p.1, q.1, field, lang, text⟩
        | none => none)))

/-- Embedding of update_translations: normalize the language, build the
hierarchy and groups, fetch the old rows (which re-normalizes the already
standard language), stage the new rows from current field values, then
delete the old row set and append the staged set. The delete and the
insert are NOT inside any transaction in the source (the module never
uses its imported transaction helper), so the two steps are separately
durable. -/
def update_translations (env : Env) (store : Store)
    (registry : List (String × String)) (active : String) (entity : PyVal)
    (relations : List String) (lang0 : Option String) : Except Err Store :=
  match _get_standard_language registry active lang0 with
  | .error e => .error e
  | .ok lang =>
    match _get_instance_groups env entity (_get_relations_hierarchy relations) with
    | .error e => .error e
    | .ok groups =>
      match _get_standard_language registry active (some lang) with
      | .error e => .error e
      | .ok lang2 =>
        let new_translations := stageNew env groups lang
        .ok (store.filter (fun t => !(translationFilter groups lang2 t)) ++
          new_translations)

/-- The store state at the point between the delete and the bulk insert of
update_translations. Because the source wraps the two calls in no
transaction, this partially-updated state is durable whenever a failure
strikes after the delete and before the insert. -/
def update_translations_state_after_delete (env : Env) (store : Store)
    (registry : List (String × String)) (active : String) (entity : PyVal)
    (relations : List String) (lang0 : Option String) : Except Err Store :=
  match _get_standard_language registry active lang0 with
  | .error e => .error e
  | .ok lang =>
    match _get_instance_groups env entity (_get_relations_hierarchy relations) with
    | .error e => .error e
    | .ok groups =>
      match _get_standard_language registry active (some lang) with
      | .error e => .error e
      | .ok lang2 =>
        .ok (store.filter (fun t => !(translationFilter groups lang2 t)))

/-- Well-formedness the walker maintains because both levels of the groups
are Python dicts: no duplicate content-type keys, no duplicate id keys in
a bucket. -/
def GoodG (g : Groups) : Prop :=
  (g.map Prod.fst).Nodup ∧ ∀ p ∈ g, (p.2.map Prod.fst).Nodup

/-- Environment for the C2 witness: one translatable model (content type
7) with fields name and denonym; the instance has a truthy name Bonjour
and a falsy (empty) denonym. -/
def envW : Env :=
  { schema := [⟨7, true, ["name", "denonym"], []⟩]
  , heap := [⟨0, 1, [("name", "Bonjour"), ("denonym", "")], []⟩] }

/-! Theorems: the claim theorems of the verification and their supporting lemmas. -/

theorem splitSep2_ne_nil (a b : Char) : ∀ acc cs, splitSep2 a b acc cs ≠ []
  | acc, [] => by simp [splitSep2]
  | acc, [c] => by simp [splitSep2]
  | acc, c :: d :: rest => by
    rw [splitSep2]
    split
    · simp
    · exact splitSep2_ne_nil a b (c :: acc) (d :: rest)

theorem pySplitUnderscore_ne_nil (s : String) : pySplitUnderscore s ≠ [] := by
  unfold pySplitUnderscore
  intro h
  exact splitSep2_ne_nil '_' '_' [] s.data (List.map_eq_nil_iff.mp h)

theorem langScan_fst (lang code : String) :
    ∀ (registry : List (String × String)) (b : Bool),
      (langScan lang code registry b).1 = true ↔ lang ∈ registry.map Prod.fst
  | [], b => by simp [langScan]
  | (c, n) :: rest, b => by
    rw [langScan]
    split
    · simp_all
    · rw [langScan_fst lang code rest]
      simp_all

theorem langScan_snd (lang code : String) :
    ∀ (registry : List (String × String)) (b : Bool),
      lang ∉ registry.map Prod.fst →
      (langScan lang code registry b).2 = (b || decide (code ∈ registry.map Prod.fst))
  | [], b => by simp [langScan]
  | (c, n) :: rest, b => by
    intro h
    have hlc : lang ≠ c := by simp_all
    have hrest : lang ∉ rest.map Prod.fst := by simp_all
    rw [langScan, if_neg hlc, langScan_snd lang code rest _ hrest]
    by_cases hcd : code = c
    · simp [hcd, List.mem_cons]
    · have hb : (code == c) = false := beq_eq_false_iff_ne.mpr hcd
      simp [hcd, hb, List.mem_cons, Bool.or_assoc]

/-- Claim C4: for a nonempty requested tag, the normalizer returns the exact
tag whenever it is registered (whatever the order of the registry, in
particular when the base code appears earlier than the exact tag); when the
exact tag is unregistered but its base code is registered it returns the
base code; and when neither is registered it fails with the unsupported
language error. -/
theorem C4_normalize_language (registry : List (String × String)) (active l : String)
    (hl : l ≠ "") :
    (l ∈ registry.map Prod.fst →
      _get_standard_language registry active (some l) = .ok l) ∧
    (l ∉ registry.map Prod.fst → (pySplitDash l).headD "" ∈ registry.map Prod.fst →
      _get_standard_language registry active (some l) = .ok ((pySplitDash l).headD "")) ∧
    (l ∉ registry.map Prod.fst → (pySplitDash l).headD "" ∉ registry.map Prod.fst →
      _get_standard_language registry active (some l) = .error .unsupportedLanguage) := by
  refine ⟨fun h1 => ?_, fun h1 h2 => ?_, fun h1 h2 => ?_⟩ <;>
    simp only [_get_standard_language, if_neg hl]
  · rw [if_pos ((langScan_fst l _ registry false).mpr h1)]
  · have hf : (langScan l ((pySplitDash l).headD "") registry false).1 = false := by
      rw [Bool.eq_false_iff]
      intro hc
      exact h1 ((langScan_fst l _ registry false).mp hc)
    rw [hf]
    simp only [Bool.false_eq_true, if_false]
    rw [langScan_snd l _ registry false h1,
      if_pos (by simp only [Bool.false_or, decide_eq_true_eq]; exact h2)]
  · have hf : (langScan l ((pySplitDash l).headD "") registry false).1 = false := by
      rw [Bool.eq_false_iff]
      intro hc
      exact h1 ((langScan_fst l _ registry false).mp hc)
    rw [hf]
    simp only [Bool.false_eq_true, if_false]
    rw [langScan_snd l _ registry false h1,
      if_neg (by simp only [Bool.false_or, decide_eq_true_eq]; exact h2)]

/-- Witness for C4, on the registry of the module docstring: en, en-gb, de,
tr. The tag en-gb is returned exactly even though its base code en appears
earlier in the registry; the unregistered tag de-at falls back to de; the
tag fr-fr with unregistered base fr is rejected. -/
theorem C4_normalize_language_witness :
    _get_standard_language [("en", "English"), ("en-gb", "British"), ("de", "German"), ("tr", "Turkish")] "en" (some "en-gb") = .ok "en-gb" ∧
    _get_standard_language [("en", "English"), ("en-gb", "British"), ("de", "German"), ("tr", "Turkish")] "en" (some "de-at") = .ok "de" ∧
    _get_standard_language [("en", "English"), ("en-gb", "British"), ("de", "German"), ("tr", "Turkish")] "en" (some "fr-fr") = .error .unsupportedLanguage := by
  refine ⟨?_, ?_, ?_⟩
  · exact (C4_normalize_language _ "en" "en-gb" (by decide)).1 (by decide)
  · exact (C4_normalize_language _ "en" "de-at" (by decide)).2.1 (by decide) (by decide)
  · exact (C4_normalize_language _ "en" "fr-fr" (by decide)).2.2 (by decide) (by decide)

/-- Claim C10: at the public interface every falsy language argument, None
as well as the empty string, is replaced by the ambient active language
before normalization, so the empty-string tag itself can never be the tag
that gets normalized. -/
theorem C10_falsy_language_uses_active (registry : List (String × String))
    (active : String) (lang0 : Option String) (h : pyTruthy lang0 = false) :
    _get_standard_language registry active lang0 =
      _get_standard_language registry active none := by
  match lang0 with
  | none => rfl
  | some s =>
    simp only [pyTruthy, ne_eq, decide_not, Bool.not_eq_false', decide_eq_true_eq] at h
    simp only [_get_standard_language, h, if_pos]

/-- Witness for C10: the empty-string tag behaves exactly like None. -/
theorem C10_falsy_language_uses_active_witness :
    pyTruthy (some "") = false ∧
    _get_standard_language [("en", "English")] "en" (some "") =
      _get_standard_language [("en", "English")] "en" none :=
  ⟨by decide, C10_falsy_language_uses_active [("en", "English")] "en" (some "") (by decide)⟩

theorem find_append1 (key k : String) (d : HNode) :
    ∀ h : HList, (h.append1 k d).find key =
      match h.find key with
      | some n => some n
      | none => if k = key then some d else none
  | .nil => by simp [HList.append1, HList.find]
  | .cons a n rest => by
    rw [HList.append1, HList.find, HList.find]
    split
    · rfl
    · exact find_append1 key k d rest

theorem find_setdefault (h : HList) (k : String) (d : HNode) (key : String) :
    (h.setdefault k d).find key =
      if k = key then some ((h.find k).getD d) else h.find key := by
  rw [HList.setdefault]
  rcases hf : h.find k with _ | n
  · rw [find_append1]
    by_cases hk : k = key
    · subst hk
      simp [hf]
    · cases hky : h.find key <;> simp [hk, hky]
  · by_cases hk : k = key
    · subst hk
      simp [hf]
    · simp [hk]

theorem find_updateWith (key k : String) (f : HNode → HNode) :
    ∀ h : HList, (h.updateWith k f).find key =
      if k = key then (h.find key).map f else h.find key
  | .nil => by simp [HList.updateWith, HList.find]
  | .cons a n rest => by
    rw [HList.updateWith]
    by_cases hak : a = k <;> by_cases hky : a = key <;>
      simp_all [HList.find, find_updateWith key k f rest]
    rw [if_neg (fun hh => hak hh.symm)]

theorem includedAt_nil (q : List String) : includedAt .nil q = none := by
  cases q <;> simp [includedAt, HList.find]

@[simp] theorem HNode.included_mk (b : Bool) (r : HList) : (HNode.mk b r).included = b := rfl

@[simp] theorem HNode.relations_mk (b : Bool) (r : HList) : (HNode.mk b r).relations = r := rfl

theorem includedAt_cons (h : HList) (k : String) (q : List String) :
    includedAt h (k :: q) =
      match h.find k with
      | none => none
      | some n =>
        match q with
        | [] => some n.included
        | _ :: _ => includedAt n.relations q := rfl

theorem fill_single (h : HList) (root : String) :
    _fill_hierarchy h [root] =
      (h.setdefault root (.mk false .nil)).updateWith root
        (fun n => .mk true n.relations) := rfl

theorem fill_cons2 (h : HList) (root p1 : String) (prest : List String) :
    _fill_hierarchy h (root :: p1 :: prest) =
      (h.setdefault root (.mk false .nil)).updateWith root
        (fun n => .mk n.included (_fill_hierarchy n.relations (p1 :: prest))) := rfl

theorem fill_includedAt :
    ∀ (parts : List String), parts ≠ [] → ∀ (h : HList) (q : List String), q ≠ [] →
    includedAt (_fill_hierarchy h parts) q =
      if q = parts then some true
      else if strictPrefixOf q parts then some ((includedAt h q).getD false)
      else includedAt h q
  | [], hne, _, _, _ => absurd rfl hne
  | [root], _, h, q, hq => by
    obtain ⟨k, qrest, rfl⟩ : ∃ k qrest, q = k :: qrest := by
      cases q with
      | nil => exact absurd rfl hq
      | cons k qrest => exact ⟨k, qrest, rfl⟩
    rw [fill_single, includedAt_cons, find_updateWith]
    by_cases hk : root = k
    · subst hk
      rw [if_pos rfl, find_setdefault, if_pos rfl]
      cases qrest with
      | nil =>
        simp [strictPrefixOf]
      | cons r rs =>
        have hne2 : (root :: r :: rs) ≠ [root] := by simp
        rw [if_neg hne2, if_neg (by simp [strictPrefixOf]), includedAt_cons]
        rcases hfr : h.find root with _ | n
        · simp [includedAt_nil]
        · simp
    · have hk2 : ¬k = root := fun hh => hk hh.symm
      rw [if_neg hk, find_setdefault, if_neg hk]
      have hne2 : (k :: qrest) ≠ [root] := by simp [hk2]
      have hne3 : strictPrefixOf (k :: qrest) [root] = false := by
        cases qrest <;>
          simp [strictPrefixOf, List.isPrefixOf, beq_eq_false_iff_ne.mpr hk2]
      rw [if_neg hne2, hne3, if_neg (by simp), includedAt_cons]
  | root :: p1 :: prest, _, h, q, hq => by
    obtain ⟨k, qrest, rfl⟩ : ∃ k qrest, q = k :: qrest := by
      cases q with
      | nil => exact absurd rfl hq
      | cons k qrest => exact ⟨k, qrest, rfl⟩
    rw [fill_cons2, includedAt_cons, find_updateWith]
    by_cases hk : root = k
    · subst hk
      rw [if_pos rfl, find_setdefault, if_pos rfl]
      cases qrest with
      | nil =>
        have hne2 : [root] ≠ root :: p1 :: prest := by simp
        rw [if_neg hne2, if_pos (by simp [strictPrefixOf, List.isPrefixOf]),
          includedAt_cons]
        rcases hfr : h.find root with _ | n <;> simp
      | cons r rs =>
        have heq : ((root :: r :: rs) = (root :: p1 :: prest)) ↔
            ((r :: rs) = (p1 :: prest)) := by simp
        have hpre : strictPrefixOf (root :: r :: rs) (root :: p1 :: prest) =
            strictPrefixOf (r :: rs) (p1 :: prest) := by
          simp [strictPrefixOf, List.isPrefixOf, Nat.succ_lt_succ_iff]
        rcases hfr : h.find root with _ | n
        · simp only [Option.getD_none, Option.map_some', HNode.included_mk,
            HNode.relations_mk]
          rw [fill_includedAt (p1 :: prest) (by simp) HList.nil (r :: rs) (by simp)]
          have hrhs : includedAt h (root :: r :: rs) = none := by
            rw [includedAt_cons, hfr]
          rw [hrhs, hpre]
          split_ifs <;> simp_all [includedAt_nil]
        · simp only [Option.getD_some, Option.map_some', HNode.included_mk,
            HNode.relations_mk]
          rw [fill_includedAt (p1 :: prest) (by simp) n.relations (r :: rs) (by simp)]
          have hrhs : includedAt h (root :: r :: rs) =
              includedAt n.relations (r :: rs) := by
            rw [includedAt_cons, hfr]
          rw [hrhs, hpre]
          split_ifs <;> simp_all
    · have hk2 : ¬k = root := fun hh => hk hh.symm
      rw [if_neg hk, find_setdefault, if_neg hk]
      have hne2 : (k :: qrest) ≠ root :: p1 :: prest := by simp [hk2]
      have hne3 : strictPrefixOf (k :: qrest) (root :: p1 :: prest) = false := by
        cases qrest <;>
          simp [strictPrefixOf, List.isPrefixOf, beq_eq_false_iff_ne.mpr hk2]
      rw [if_neg hne2, hne3, if_neg (by simp), includedAt_cons]

theorem build_includedAt :
    ∀ (ps : List (List String)) (h : HList) (q : List String), q ≠ [] →
      (∀ p ∈ ps, p ≠ []) →
      includedAt (ps.foldl _fill_hierarchy h) q =
        if q ∈ ps then some true
        else if ps.any (fun p => strictPrefixOf q p) then
          some ((includedAt h q).getD false)
        else includedAt h q
  | [], h, q, hq, _ => by simp
  | p :: ps, h, q, hq, hne => by
    have hp : p ≠ [] := hne p (by simp)
    have hps : ∀ x ∈ ps, x ≠ [] := fun x hx => hne x (by simp [hx])
    rw [List.foldl_cons, build_includedAt ps (_fill_hierarchy h p) q hq hps,
      fill_includedAt p hp h q hq]
    by_cases h1 : q ∈ ps
    · simp [h1]
    · by_cases h2 : q = p
      · subst h2
        simp [h1]
      · by_cases h3 : ps.any (fun x => strictPrefixOf q x)
        · by_cases h4 : strictPrefixOf q p <;> simp [h1, h2, h3, h4]
        · by_cases h4 : strictPrefixOf q p <;> simp [h1, h2, h3, h4]

/-- Claim C5: building the hierarchy is a merge. For every list of dotted
relation paths, the node reached by a nonempty segment path q carries
included true exactly when q is the segment list of one of the paths,
included false when q is only a proper prefix of some path (intermediate
segments default to not included unless also given as their own path), and
no node exists otherwise. In particular building from the two paths a and
a__b and building from a__b followed by re-adding a produce the identical
tree, namely a included with child b included. -/
theorem C5_hierarchy_merge :
    (∀ (relations : List String) (q : List String), q ≠ [] →
      includedAt (_get_relations_hierarchy relations) q =
        if q ∈ relations.map pySplitUnderscore then some true
        else if (relations.map pySplitUnderscore).any
            (fun p => strictPrefixOf q p) then some false
        else none) ∧
    _get_relations_hierarchy ["a", "a__b"] = _get_relations_hierarchy ["a__b", "a"] ∧
    _get_relations_hierarchy ["a__b", "a"] =
      .cons "a" (.mk true (.cons "b" (.mk true .nil) .nil)) .nil := by
  refine ⟨fun relations q hq => ?_, by decide, by decide⟩
  have hmap : _get_relations_hierarchy relations =
      (relations.map pySplitUnderscore).foldl _fill_hierarchy .nil := by
    rw [_get_relations_hierarchy, List.foldl_map]
  rw [hmap, build_includedAt (relations.map pySplitUnderscore) .nil q hq
    (by intro p hp
        obtain ⟨r, _, rfl⟩ := List.mem_map.mp hp
        exact pySplitUnderscore_ne_nil r)]
  rw [includedAt_nil]
  rfl

/-- Witness for C5: in the hierarchy built from the single path a__b, the
intermediate segment a gets included false by default while the terminal
path a, b is included true. -/
theorem C5_hierarchy_merge_witness :
    includedAt (_get_relations_hierarchy ["a__b"]) ["a"] = some false ∧
    includedAt (_get_relations_hierarchy ["a__b"]) ["a", "b"] = some true := by
  constructor
  · rw [C5_hierarchy_merge.1 ["a__b"] ["a"] (by decide)]
    decide
  · rw [C5_hierarchy_merge.1 ["a__b"] ["a", "b"] (by decide)]
    decide

theorem joinUnder_append_one (x : String) :
    ∀ (l : List String), l ≠ [] → joinUnder (l ++ [x]) = joinUnder l ++ "__" ++ x
  | [], h => absurd rfl h
  | [y], _ => by simp [joinUnder]
  | y :: z :: rest, _ => by
    have ih := joinUnder_append_one x (z :: rest) (by simp)
    simp only [List.cons_append] at ih
    show y ++ "__" ++ joinUnder (z :: (rest ++ [x])) =
      (y ++ "__" ++ joinUnder (z :: rest)) ++ "__" ++ x
    rw [ih]
    simp [String.append_assoc]

theorem hopReverseNames_ne_nil (meta : RelMeta) (m : Nat) (root : String)
    (branch : List String) (names : List String)
    (h : hopReverseNames meta m (root :: branch) = .ok names) : names ≠ [] := by
  rw [hopReverseNames] at h
  rcases hf : getField meta m root with _ | f <;> simp only [hf] at h
  · exact Except.noConfusion h
  · rcases hr : hopReverseNames meta f.relatedModel branch with _ | rest <;>
      simp only [hr] at h
    · exact Except.noConfusion h
    · injection h with h2
      simp [← h2]

/-- Claim C9: the reverse of a multi-hop relation path is composed
recursively, innermost first. In closed form, the reverse relation equals
the per-hop declared reverse names joined in reverse order with the
double-underscore separator; and for a path of head a followed by a
nonempty rest, the reverse is the reverse of rest computed against the
related model of a, joined with the declared reverse of a composed on the
outside. -/
theorem C9_reverse_relation_composition (meta : RelMeta) :
    (∀ (m : Nat) (parts : List String), parts ≠ [] →
      _get_reverse_relation meta m parts =
        match hopReverseNames meta m parts with
        | .error e => .error e
        | .ok names => .ok (joinUnder names.reverse)) ∧
    (∀ (m : Nat) (a : String) (rest : List String), rest ≠ [] →
      ∀ f, getField meta m a = .ok f →
      _get_reverse_relation meta m (a :: rest) =
        match _get_reverse_relation meta f.relatedModel rest with
        | .error e => .error e
        | .ok branchReverse => .ok (branchReverse ++ "__" ++ f.remoteName)) := by
  constructor
  · intro m parts
    induction parts generalizing m with
    | nil => intro h; exact absurd rfl h
    | cons root branch ih =>
      intro _
      rw [_get_reverse_relation, hopReverseNames]
      rcases hf : getField meta m root with _ | f <;> simp only [hf]
      cases branch with
      | nil => simp [hopReverseNames, joinUnder]
      | cons b bs =>
        rw [ih f.relatedModel (by simp)]
        rcases hr : hopReverseNames meta f.relatedModel (b :: bs) with _ | names <;>
          simp only [hr]
        have hnn : names.reverse ≠ [] := by
          simp [hopReverseNames_ne_nil meta f.relatedModel b bs names hr]
        rw [List.reverse_cons, joinUnder_append_one f.remoteName names.reverse hnn]
  · intro m a rest hrest f hf
    cases rest with
    | nil => exact absurd rfl hrest
    | cons b bs =>
      rw [_get_reverse_relation]
      simp [hf]

/-- Witness for C9, on the sample models of the module docstring: the
reverse of the Continent relation countries__cities is country__continent,
the reverse of the inner hop composed with the reverse of the outer hop on
the outside. Model indices: Continent 0, Country 1, City 2. -/
theorem C9_reverse_relation_composition_witness :
    reverseRelationOf
      [[("countries", ⟨"continent", 1⟩)], [("cities", ⟨"country", 2⟩)], []]
      0 "countries__cities" = .ok "country__continent" := by
  have h := (C9_reverse_relation_composition
    [[("countries", ⟨"continent", 1⟩)], [("cities", ⟨"country", 2⟩)], []]).1
    0 ["countries", "cities"] (by decide)
  rw [reverseRelationOf]
  have hsplit : pySplitUnderscore "countries__cities" = ["countries", "cities"] := by
    decide
  rw [hsplit, h]
  rfl

/-- Counterexample for claim C7. The collection holding one model instance
and then the number 42 is not a homogeneous collection of model instances,
yet the purview build does not fail with InvalidEntity as the claim
demands: the entity-details check only inspects the first element, and the
walk fails later with AttributeError while registering 42 (str of 42.id). -/
theorem C7_counterexample :
    isModelInstance (.listLit [.obj 0, .scalar 42]) = false ∧
    isHomogeneousCollection (.listLit [.obj 0, .scalar 42]) = false ∧
    _get_instance_groups envH (.listLit [.obj 0, .scalar 42]) .nil =
      .error .attributeError ∧
    _get_instance_groups envH (.listLit [.obj 0, .scalar 42]) .nil ≠
      .error .invalidEntity := by
  refine ⟨rfl, rfl, ?_, ?_⟩
  · rw [_get_instance_groups, _fill_entity]
    simp [_fill_objs, _fill_obj, _fill_obj_relations, _get_entity_details,
      pyRegister, deref, modelD, elemsOf, setdefaultOuter, registerObj, upsertA,
      lookupNat, lookupA, relValueOf, dObj, dModel, envH]
  · rw [_get_instance_groups, _fill_entity]
    simp [_fill_objs, _fill_obj, _fill_obj_relations, _get_entity_details,
      pyRegister, deref, modelD, elemsOf, setdefaultOuter, registerObj, upsertA,
      lookupNat, lookupA, relValueOf, dObj, dModel, envH]

/-- Claim C7 as amended: the entity check fails with InvalidEntity exactly
when the value is neither a model instance nor an iterable, or is a
nonempty iterable whose first element is not a model instance; homogeneity
of the later elements is not checked there (a later non-instance element
fails differently, during registration). An empty collection is permitted,
yields no type, and makes the walk a no-op for that branch. -/
theorem C7_invalid_entity_characterization (env : Env) :
    (∀ v : PyVal,
      _get_entity_details env v = .error .invalidEntity ↔
        ((isModelInstance v = false ∧ isIterable v = false) ∨
         (∃ x xs, v = .listLit (x :: xs) ∧ isModelInstance x = false))) ∧
    _get_entity_details env (.listLit []) = .ok (true, none) ∧
    (∀ (hier : HList) (included : Bool) (g : Groups),
      _fill_entity env (.listLit []) hier included g = .ok g) := by
  refine ⟨fun v => ?_, rfl, fun hier included g => ?_⟩
  · cases v with
    | obj r => simp [_get_entity_details, isModelInstance, isIterable]
    | scalar n => simp [_get_entity_details, isModelInstance, isIterable]
    | listLit xs =>
      cases xs with
      | nil => simp [_get_entity_details, isModelInstance, isIterable]
      | cons x rest =>
        cases x with
        | obj r => simp [_get_entity_details, isModelInstance, isIterable]
        | scalar n => simp [_get_entity_details, isModelInstance]
        | listLit ys => simp [_get_entity_details, isModelInstance]
  · rw [_fill_entity]
    rfl

/-- Witness for the amended C7: a plain number is rejected as InvalidEntity
and the empty list walks to an unchanged empty groups dict. -/
theorem C7_invalid_entity_characterization_witness :
    _get_entity_details envH (.scalar 5) = .error .invalidEntity ∧
    _fill_entity envH (.listLit []) .nil true [] = .ok [] := by
  constructor
  · exact ((C7_invalid_entity_characterization envH).1 (.scalar 5)).mpr
      (Or.inl ⟨rfl, rfl⟩)
  · exact (C7_invalid_entity_characterization envH).2.2 .nil true []

theorem details_error_invalid (env : Env) (v : PyVal) (e : Err)
    (h : _get_entity_details env v = .error e) : e = .invalidEntity := by
  cases v with
  | obj r => exact Except.noConfusion h
  | scalar n =>
    injection h with h2
    exact h2.symm
  | listLit xs =>
    cases xs with
    | nil => exact Except.noConfusion h
    | cons x rest =>
      cases x with
      | obj r => exact Except.noConfusion h
      | scalar n =>
        injection h with h2
        exact h2.symm
      | listLit ys =>
        injection h with h2
        exact h2.symm

theorem passthru_all : ∀ (k : Nat) (hier : HList), sizeH hier ≤ k →
    noneIncludedH hier = true →
    ((∀ env e m g, PassThru (_fill_obj_relations env e m hier g) g) ∧
     (∀ env e m ct g, PassThru (_fill_obj env e m ct hier false g) g) ∧
     (∀ env elems m ct g, PassThru (_fill_objs env elems m ct hier false g) g) ∧
     (∀ env e g, PassThru (_fill_entity env e hier false g) g)) := by
  intro k
  induction k using Nat.strong_induction_on with
  | _ k IH =>
    intro hier hsz hni
    have hrels : ∀ env e m g, PassThru (_fill_obj_relations env e m hier g) g := by
      intro env e m g
      cases hier with
      | nil =>
        rw [_fill_obj_relations]
        exact Or.inl rfl
      | cons rel detail rest =>
        have hnb : noneIncludedN detail = true ∧ noneIncludedH rest = true := by
          simpa [noneIncludedH, Bool.and_eq_true] using hni
        obtain ⟨hnd, hnr⟩ := hnb
        have hdi : detail.included = false ∧ noneIncludedH detail.relations = true := by
          cases detail with
          | mk b rs =>
            have h2 : (!b && noneIncludedH rs) = true := hnd
            simp only [Bool.and_eq_true, Bool.not_eq_true'] at h2
            exact ⟨h2.1, h2.2⟩
        obtain ⟨hdif, hdnr⟩ := hdi
        have hszr : sizeH rest < k := by
          have hlt : sizeH rest < sizeH (.cons rel detail rest) := by
            simp only [sizeH_cons, sizeN_eq]
            omega
          omega
        have hszd : sizeH detail.relations < k := by
          have hlt : sizeH detail.relations < sizeH (.cons rel detail rest) := by
            simp only [sizeH_cons, sizeN_eq]
            omega
          omega
        have IHrest := IH (sizeH rest) hszr rest le_rfl hnr
        have IHdet := IH (sizeH detail.relations) hszd detail.relations le_rfl hdnr
        rw [_fill_obj_relations]
        by_cases hm : rel ∈ (modelD env m).relNames
        · rw [if_pos hm]
          cases hv : relValueOf env e rel with
          | null => exact IHrest.1 env e m g
          | single r =>
            rw [hdif]
            rcases IHdet.2.2.2 env (.obj r) g with h1 | h1 | h1 <;> simp only [h1]
            · exact IHrest.1 env e m g
            · exact Or.inr (Or.inl rfl)
            · exact Or.inr (Or.inr rfl)
          | many rs =>
            rw [hdif]
            rcases IHdet.2.2.2 env (.listLit (rs.map .obj)) g with h1 | h1 | h1 <;>
              simp only [h1]
            · exact IHrest.1 env e m g
            · exact Or.inr (Or.inl rfl)
            · exact Or.inr (Or.inr rfl)
        · rw [if_neg hm]
          exact Or.inr (Or.inr rfl)
    have hobj : ∀ env e m ct g, PassThru (_fill_obj env e m ct hier false g) g := by
      intro env e m ct g
      rw [_fill_obj]
      simp only [Bool.false_eq_true, if_false]
      exact hrels env e m g
    have hobjs : ∀ env elems m ct g,
        PassThru (_fill_objs env elems m ct hier false g) g := by
      intro env elems
      induction elems with
      | nil =>
        intro m ct g
        rw [_fill_objs]
        exact Or.inl rfl
      | cons e rest ihe =>
        intro m ct g
        rw [_fill_objs]
        rcases hobj env e m ct g with h1 | h1 | h1 <;> rw [h1]
        · exact ihe m ct g
        · exact Or.inr (Or.inl rfl)
        · exact Or.inr (Or.inr rfl)
    have hentity : ∀ env e g, PassThru (_fill_entity env e hier false g) g := by
      intro env e g
      rw [_fill_entity]
      rcases hd : _get_entity_details env e with err | pair
      · have he := details_error_invalid env e err hd
        subst he
        exact Or.inr (Or.inl rfl)
      · obtain ⟨it, mo⟩ := pair
        cases mo with
        | none => exact Or.inl rfl
        | some m => exact hobjs env (elemsOf e) m (modelD env m).ctId g
    exact ⟨hrels, hobj, hobjs, hentity⟩

/-- Claim C6: a content-type bucket is created only for levels whose
hierarchy node is included, and NotTranslatable is raised only at an
included level. First, generally: a walk in which neither the level nor
any hierarchy node below it is included leaves the groups untouched and
can only fail with InvalidEntity or FieldDoesNotExist, never
NotTranslatable, whatever the types involved. Second, on the spec
scenario children (not included, not translatable) with items below it
(included, translatable): the walk succeeds and the resulting mapping
holds only the root bucket and the items bucket, never the children
type, although traversal passed through the children instances. -/
theorem C6_bucket_only_for_included :
    (∀ (env : Env) (e : PyVal) (hier : HList) (g : Groups),
        noneIncludedH hier = true →
        PassThru (_fill_entity env e hier false g) g) ∧
    ((modelD envC 1).translatable = false ∧
      _get_instance_groups envC (.obj 0)
        (_get_relations_hierarchy ["children__items"]) =
        .ok [(1, [("1", 0)]), (3, [("9", 2)])]) := by
  refine ⟨fun env e hier g hni =>
    (passthru_all (sizeH hier) hier le_rfl hni).2.2.2 env e g, by decide, ?_⟩
  have hh : _get_relations_hierarchy ["children__items"] =
      .cons "children" (.mk false (.cons "items" (.mk true .nil) .nil)) .nil := by
    decide
  rw [_get_instance_groups, hh, _fill_entity]
  simp [_fill_objs, _fill_obj, _fill_obj_relations, _get_entity_details,
    pyRegister, deref, modelD, elemsOf, setdefaultOuter, registerObj, upsertA,
    lookupNat, lookupA, relValueOf, dObj, dModel, envC, _fill_entity]
  decide

/-- Witness for C6: the general pass-through conjunct applied to the
concrete environment with the single non-included node children. -/
theorem C6_bucket_only_for_included_witness :
    noneIncludedH (.cons "children" (.mk false .nil) .nil) = true ∧
    PassThru (_fill_entity envC (.obj 0)
      (.cons "children" (.mk false .nil) .nil) false []) [] :=
  ⟨by decide, C6_bucket_only_for_included.1 envC (.obj 0)
    (.cons "children" (.mk false .nil) .nil) [] (by decide)⟩

theorem getD_map {α β : Type} (f : α → β) :
    ∀ (l : List α) (r : Nat) (d : α), (l.map f).getD r (f d) = f (l.getD r d)
  | [], _, _ => rfl
  | _ :: _, 0, _ => rfl
  | _ :: l, r + 1, d => getD_map f l r d

theorem deref_strip (env : Env) (r : Nat) :
    deref (stripAttrs env) r = stripObj (deref env r) :=
  getD_map stripObj env.heap r dObj

theorem modelD_strip (env : Env) (m : Nat) : modelD (stripAttrs env) m = modelD env m := rfl

theorem details_strip (env : Env) (v : PyVal) :
    _get_entity_details (stripAttrs env) v = _get_entity_details env v := by
  cases v with
  | obj r => simp [_get_entity_details, deref_strip, stripObj]
  | scalar n => rfl
  | listLit xs =>
    cases xs with
    | nil => rfl
    | cons x rest =>
      cases x with
      | obj r => simp [_get_entity_details, deref_strip, stripObj]
      | scalar n => rfl
      | listLit ys => rfl

theorem relValueOf_strip (env : Env) (e : PyVal) (rel : String) :
    relValueOf (stripAttrs env) e rel = relValueOf env e rel := by
  cases e with
  | obj r => simp [relValueOf, deref_strip, stripObj]
  | scalar n => rfl
  | listLit xs => rfl

theorem pyRegister_strip (env : Env) (e : PyVal) (ct : Nat) (g : Groups) :
    pyRegister (stripAttrs env) e ct g = pyRegister env e ct g := by
  cases e with
  | obj r => simp [pyRegister, deref_strip, stripObj]
  | scalar n => rfl
  | listLit xs => rfl

theorem strip_attrs_walk : ∀ (k : Nat) (hier : HList), sizeH hier ≤ k →
    ((∀ env e m g, _fill_obj_relations (stripAttrs env) e m hier g =
        _fill_obj_relations env e m hier g) ∧
     (∀ env e m ct included g, _fill_obj (stripAttrs env) e m ct hier included g =
        _fill_obj env e m ct hier included g) ∧
     (∀ env elems m ct included g,
        _fill_objs (stripAttrs env) elems m ct hier included g =
        _fill_objs env elems m ct hier included g) ∧
     (∀ env e included g, _fill_entity (stripAttrs env) e hier included g =
        _fill_entity env e hier included g)) := by
  intro k
  induction k using Nat.strong_induction_on with
  | _ k IH =>
    intro hier hsz
    have hrels : ∀ env e m g, _fill_obj_relations (stripAttrs env) e m hier g =
        _fill_obj_relations env e m hier g := by
      intro env e m g
      cases hier with
      | nil => rw [_fill_obj_relations, _fill_obj_relations]
      | cons rel detail rest =>
        have hszr : sizeH rest < k := by
          have hlt : sizeH rest < sizeH (.cons rel detail rest) := by
            simp only [sizeH_cons, sizeN_eq]
            omega
          omega
        have hszd : sizeH detail.relations < k := by
          have hlt : sizeH detail.relations < sizeH (.cons rel detail rest) := by
            simp only [sizeH_cons, sizeN_eq]
            omega
          omega
        have IHrest := IH (sizeH rest) hszr rest le_rfl
        have IHdet := IH (sizeH detail.relations) hszd detail.relations le_rfl
        simp only [_fill_obj_relations]
        simp only [modelD_strip, relValueOf_strip, IHdet.2.2.2, IHrest.1]
    have hobj : ∀ env e m ct included g,
        _fill_obj (stripAttrs env) e m ct hier included g =
        _fill_obj env e m ct hier included g := by
      intro env e m ct included g
      rw [_fill_obj, _fill_obj]
      simp only [pyRegister_strip, hrels]
    have hobjs : ∀ env elems m ct included g,
        _fill_objs (stripAttrs env) elems m ct hier included g =
        _fill_objs env elems m ct hier included g := by
      intro env elems
      induction elems with
      | nil =>
        intro m ct included g
        rw [_fill_objs, _fill_objs]
      | cons e rest ihe =>
        intro m ct included g
        rw [_fill_objs, _fill_objs]
        simp only [hobj, ihe]
    have hentity : ∀ env e included g,
        _fill_entity (stripAttrs env) e hier included g =
        _fill_entity env e hier included g := by
      intro env e included g
      rw [_fill_entity, _fill_entity]
      simp only [details_strip, modelD_strip, hobjs]
    exact ⟨hrels, hobj, hobjs, hentity⟩

/-- Counterexample for claim C8. The claim says the walker captures a copy
of the current translatable-field values of every included instance,
retained in what the build produces. It does not: the build result is
identical for two environments whose instance differs in the current value
of its translatable field name (here Hello versus Hi), so no snapshot of
field values is captured anywhere in the result; only the bare reference
is registered. -/
theorem C8_counterexample :
    _get_instance_groups envH (.obj 0) .nil =
      _get_instance_groups
        { envH with heap := [⟨0, 1, [("name", "Hi")], []⟩] } (.obj 0) .nil ∧
    lookupA (deref envH 0).attrs "name" ≠
      lookupA (deref { envH with heap := [⟨0, 1, [("name", "Hi")], []⟩] } 0).attrs
        "name" := by
  constructor
  · rw [_get_instance_groups, _get_instance_groups, _fill_entity, _fill_entity]
    simp [_fill_objs, _fill_obj, _fill_obj_relations, _get_entity_details,
      pyRegister, deref, modelD, elemsOf, setdefaultOuter, registerObj, upsertA,
      lookupNat, lookupA, relValueOf, dObj, dModel, envH]
  · simp [deref, envH, lookupA, dObj]

/-- Claim C8 as amended: during the purview build each included instance is
registered in its bucket by bare reference under its instance id; no copy
of its field values is captured anywhere in the result. Generally, the
build output is invariant under erasing every attribute value from the
heap; concretely, the purview of instance 0 of the test environment is
exactly the reference-indexing mapping with content type 7 and id string 1
holding reference 0. -/
theorem C8_registers_references_no_snapshot :
    (∀ (env : Env) (entity : PyVal) (hierarchy : HList),
      _get_instance_groups (stripAttrs env) entity hierarchy =
        _get_instance_groups env entity hierarchy) ∧
    _get_instance_groups envH (.obj 0) .nil = .ok [(7, [("1", 0)])] := by
  constructor
  · intro env entity hierarchy
    exact (strip_attrs_walk (sizeH hierarchy) hierarchy le_rfl).2.2.2 env entity true []
  · rw [_get_instance_groups, _fill_entity]
    simp [_fill_objs, _fill_obj, _fill_obj_relations, _get_entity_details,
      pyRegister, deref, modelD, elemsOf, setdefaultOuter, registerObj, upsertA,
      lookupNat, lookupA, relValueOf, dObj, dModel, envH]
    decide

/-- Claim C1 concerns the atomicity of delete-then-insert in
update_translations. The source executes old_translations.delete() and
then bulk_create outside any transaction (the module never uses its
imported transaction helper), so the state after the delete is durable on its
own: a failure between the two calls leaves the store empty here, not in
its prior one-row state. The spec demands fail closed; the code fails
open. This theorem evaluates the embedding at the failing input: prior
store holding the row (7, 1, name, de, Hallo), update of instance 0 in
language de; the intermediate durable state is the empty store, which
differs from the prior store, while a completed run would have produced
the staged row. -/
theorem C1_delete_insert_not_atomic :
    update_translations_state_after_delete envH [⟨7, "1", "name", "de", "Hallo"⟩]
      [("de", "German")] "en" (.obj 0) [] (some "de") = .ok [] ∧
    ([] : Store) ≠ [⟨7, "1", "name", "de", "Hallo"⟩] ∧
    update_translations envH [⟨7, "1", "name", "de", "Hallo"⟩]
      [("de", "German")] "en" (.obj 0) [] (some "de") =
      .ok [⟨7, "1", "name", "de", "Hello"⟩] := by
  refine ⟨?_, by decide, ?_⟩
  · rw [update_translations_state_after_delete]
    have hg : _get_instance_groups envH (.obj 0) (_get_relations_hierarchy []) =
        .ok [(7, [("1", 0)])] := by
      rw [_get_instance_groups, _fill_entity]
      simp [_fill_objs, _fill_obj, _fill_obj_relations, _get_entity_details,
        pyRegister, deref, modelD, elemsOf, setdefaultOuter, registerObj,
        upsertA, lookupNat, lookupA, relValueOf, dObj, dModel, envH,
        _get_relations_hierarchy]
      decide
    rw [hg]
    simp [_get_standard_language, langScan, pySplitDash, splitSep1,
      translationFilter, groupPairs]
  · rw [update_translations]
    have hg : _get_instance_groups envH (.obj 0) (_get_relations_hierarchy []) =
        .ok [(7, [("1", 0)])] := by
      rw [_get_instance_groups, _fill_entity]
      simp [_fill_objs, _fill_obj, _fill_obj_relations, _get_entity_details,
        pyRegister, deref, modelD, elemsOf, setdefaultOuter, registerObj,
        upsertA, lookupNat, lookupA, relValueOf, dObj, dModel, envH,
        _get_relations_hierarchy]
      decide
    rw [hg]
    simp [_get_standard_language, langScan, pySplitDash, splitSep1,
      translationFilter, groupPairs, stageNew, attrOf, modelD, deref, envH,
      lookupA, dObj, dModel]

theorem getD_set {α : Type} :
    ∀ (l : List α) (i j : Nat) (a d : α),
      (l.set i a).getD j d = if i = j ∧ i < l.length then a else l.getD j d
  | [], i, j, a, d => by simp
  | x :: l, 0, 0, a, d => by simp
  | x :: l, 0, j + 1, a, d => by simp [List.getD]
  | x :: l, i + 1, 0, a, d => by simp [List.getD]
  | x :: l, i + 1, j + 1, a, d => by
    have ih := getD_set l i j a d
    simp only [List.set, List.getD_cons_succ, List.length_cons]
    rw [ih]
    by_cases hij : i = j
    · subst hij
      by_cases hlen : i < l.length <;> simp [hlen, Nat.succ_lt_succ_iff]
    · have hij2 : ¬(i + 1 = j + 1) := by omega
      simp [hij, hij2]

theorem lookupA_upsertA {β : Type} (k key : String) (v : β) :
    ∀ (l : List (String × β)),
      lookupA (upsertA l k v) key = if k = key then some v else lookupA l key
  | [] => by
    by_cases hk : k = key <;> simp [upsertA, lookupA, hk]
  | (a, w) :: rest => by
    rw [upsertA]
    by_cases hak : a = k
    · subst hak
      by_cases hky : a = key <;> simp [lookupA, hky]
    · rw [if_neg hak, lookupA, lookupA]
      by_cases hky : a = key
      · subst hky
        have hk2 : ¬k = a := fun hh => hak hh.symm
        simp [hk2]
      · simp [hky, lookupA_upsertA k key v rest]

theorem deref_setAttr_model (env : Env) (r0 r : Nat) (f v : String) :
    (deref (setAttr env r0 f v) r).model = (deref env r).model := by
  rw [deref, deref, setAttr]
  show ((env.heap.set r0 _).getD r dObj).model = (env.heap.getD r dObj).model
  rw [getD_set]
  split
  · next hcond =>
    obtain ⟨rfl, hlen⟩ := hcond
    rfl
  · rfl

theorem attrOf_setAttr (env : Env) (r0 r : Nat) (f0 f v : String) :
    attrOf (setAttr env r0 f0 v) r f =
      if r0 = r ∧ r0 < env.heap.length ∧ f0 = f then some v
      else attrOf env r f := by
  rw [attrOf, attrOf, deref, deref, setAttr]
  show lookupA ((env.heap.set r0 _).getD r dObj).attrs f = _
  rw [getD_set]
  by_cases hr : r0 = r ∧ r0 < env.heap.length
  · obtain ⟨rfl, hlen⟩ := hr
    rw [if_pos ⟨rfl, hlen⟩]
    show lookupA (upsertA (deref env r0).attrs f0 v) f = _
    rw [lookupA_upsertA]
    by_cases hf : f0 = f
    · simp [hf, hlen]
    · simp [hf, attrOf, deref]
  · rw [if_neg hr]
    have hcond : ¬(r0 = r ∧ r0 < env.heap.length ∧ f0 = f) := by
      intro hc
      exact hr ⟨hc.1, hc.2.1⟩
    rw [if_neg hcond]

theorem applyLoop_spec (groups : Groups) :
    ∀ (ts : List Translation) (env env1 : Env),
      applyLoop groups env ts = .ok env1 →
      ((∀ r, (deref env1 r).model = (deref env r).model) ∧
       (∀ r f, attrOf env1 r f ≠ attrOf env r f →
         f ∈ (modelD env (deref env r).model).tfields ∧
         ∃ t ∈ ts, ownerRef groups t = some r ∧ t.field = f ∧
           attrOf env1 r f = some t.text) ∧
       (∀ r f, (∀ t ∈ ts, ¬(ownerRef groups t = some r ∧ t.field = f)) →
         attrOf env1 r f = attrOf env r f))
  | [], env, env1, h => by
    rw [applyLoop] at h
    injection h with h2
    subst h2
    exact ⟨fun _ => rfl, fun r f hne => absurd rfl hne, fun _ _ _ => rfl⟩
  | t :: rest, env, env1, h => by
    rw [applyLoop] at h
    rcases hct : lookupNat groups t.content_type_id with _ | objs <;>
      simp only [hct] at h
    · exact Except.noConfusion h
    rcases hoid : lookupA objs t.object_id with _ | r0 <;> simp only [hoid] at h
    · exact Except.noConfusion h
    have hown : ownerRef groups t = some r0 := by
      simp only [ownerRef, hct, hoid]
    have ih := applyLoop_spec groups rest _ env1 h
    have hmodel1 : ∀ r, (deref (if t.field ∈ (modelD env (deref env r0).model).tfields
        then setAttr env r0 t.field t.text else env) r).model = (deref env r).model := by
      intro r
      split
      · exact deref_setAttr_model env r0 r t.field t.text
      · rfl
    have hschema : ∀ m, modelD (if t.field ∈ (modelD env (deref env r0).model).tfields
        then setAttr env r0 t.field t.text else env) m = modelD env m := by
      intro m
      split <;> rfl
    refine ⟨fun r => (ih.1 r).trans (hmodel1 r), ?_, ?_⟩
    · intro r f hne
      by_cases hmid : attrOf env1 r f =
          attrOf (if t.field ∈ (modelD env (deref env r0).model).tfields
            then setAttr env r0 t.field t.text else env) r f
      · -- the change happened at the head row
        rw [hmid] at hne ⊢
        rcases hguard : decide (t.field ∈ (modelD env (deref env r0).model).tfields)
          with _ | _
        · rw [if_neg (by simpa using hguard)] at hne
          exact absurd rfl hne
        · have hg2 : t.field ∈ (modelD env (deref env r0).model).tfields := by
            simpa using hguard
          rw [if_pos hg2] at hne ⊢
          rw [attrOf_setAttr] at hne ⊢
          by_cases hc : r0 = r ∧ r0 < env.heap.length ∧ t.field = f
          · obtain ⟨rfl, hlen, hf⟩ := hc
            subst hf
            refine ⟨hg2, t, by simp, hown, rfl, ?_⟩
            rw [if_pos ⟨rfl, hlen, rfl⟩]
          · rw [if_neg hc] at hne
            exact absurd rfl hne
      · -- the change happened in the tail
        have h2 := ih.2.1 r f hmid
        obtain ⟨hf2, t2, ht2, hown2, hfield2, hval2⟩ := h2
        rw [hschema, hmodel1] at hf2
        have hmem2 : attrOf (if t.field ∈ (modelD env (deref env r0).model).tfields
            then setAttr env r0 t.field t.text else env) r f = attrOf env r f ∨
            (t.field = f ∧ r0 = r) := by
          split
          · rw [attrOf_setAttr]
            by_cases hc : r0 = r ∧ r0 < env.heap.length ∧ t.field = f
            · exact Or.inr ⟨hc.2.2, hc.1⟩
            · rw [if_neg hc]
              exact Or.inl rfl
          · exact Or.inl rfl
        refine ⟨hf2, t2, by simp [ht2], hown2, hfield2, hval2⟩
    · intro r f hno
      have hnot : ¬(r0 = r ∧ t.field = f) := by
        intro hc
        exact hno t (by simp) ⟨by rw [hown, hc.1], hc.2⟩
      have hmid : attrOf (if t.field ∈ (modelD env (deref env r0).model).tfields
          then setAttr env r0 t.field t.text else env) r f = attrOf env r f := by
        split
        · rw [attrOf_setAttr]
          have hc : ¬(r0 = r ∧ r0 < env.heap.length ∧ t.field = f) := by
            intro hc
            exact hnot ⟨hc.1, hc.2.2⟩
          rw [if_neg hc]
        · rfl
      have htail := ih.2.2 r f (fun t2 ht2 => hno t2 (by simp [ht2]))
      rw [htail, hmid]

/-- Claim C3: for every fetched row, the owning instance (looked up by
content type and object id in the groups) gets the named field set to the
row text only if its concrete type still declares that field translatable;
any field of any instance for which no fetched row matches keeps its
original value, so there is no implicit fallback language. Stated over a
successful run of apply_translations: (1) a field targeted by no fetched
row is unchanged, (2) a field the type does not declare translatable is
unchanged, (3) every change comes from a matching fetched row whose text
is the new value and whose field is declared translatable. The last
conjunct is the positive example of the spec: with the stored row (type of
X, 1, name, fr, Bonjour), applying on X in fr sets name to Bonjour in
place. -/
theorem C3_apply_only_translatable_no_fallback
    (env : Env) (store : Store) (registry : List (String × String))
    (active : String) (entity : PyVal) (relations : List String)
    (lang0 : Option String) (env1 : Env)
    (h : apply_translations env store registry active entity relations lang0 =
      .ok env1) :
    (∀ groups ts,
      _get_instance_groups env entity (_get_relations_hierarchy relations) =
        .ok groups →
      _get_translations store registry active groups lang0 = .ok ts →
      ((∀ r f, (∀ t ∈ ts, ¬(ownerRef groups t = some r ∧ t.field = f)) →
          attrOf env1 r f = attrOf env r f) ∧
       (∀ r f, f ∉ (modelD env (deref env r).model).tfields →
          attrOf env1 r f = attrOf env r f) ∧
       (∀ r f, attrOf env1 r f ≠ attrOf env r f →
          f ∈ (modelD env (deref env r).model).tfields ∧
          ∃ t ∈ ts, ownerRef groups t = some r ∧ t.field = f ∧
            attrOf env1 r f = some t.text))) ∧
    apply_translations envH [⟨7, "1", "name", "fr", "Bonjour"⟩]
      [("fr", "French")] "en" (.obj 0) [] (some "fr") =
      .ok { envH with heap := [⟨0, 1, [("name", "Bonjour")], []⟩] } := by
  constructor
  · intro groups ts hg hts
    rw [apply_translations] at h
    simp only [hg, hts] at h
    have spec := applyLoop_spec groups ts env env1 h
    refine ⟨spec.2.2, ?_, spec.2.1⟩
    intro r f hnf
    by_contra hne
    exact hnf (spec.2.1 r f hne).1
  · rw [apply_translations]
    have hg : _get_instance_groups envH (.obj 0) (_get_relations_hierarchy []) =
        .ok [(7, [("1", 0)])] := by
      rw [_get_instance_groups, _fill_entity]
      simp [_fill_objs, _fill_obj, _fill_obj_relations, _get_entity_details,
        pyRegister, deref, modelD, elemsOf, setdefaultOuter, registerObj,
        upsertA, lookupNat, lookupA, relValueOf, dObj, dModel, envH,
        _get_relations_hierarchy]
      decide
    rw [hg]
    simp [_get_translations, _get_standard_language, langScan, pySplitDash,
      splitSep1, translationFilter, groupPairs, applyLoop, lookupNat, lookupA,
      modelD, deref, envH, dObj, dModel, setAttr, upsertA, attrOf]

/-- Witness for C3: a run over a store holding one row whose field name
info the type does not declare translatable leaves the instance untouched,
by the frame conjunct of the theorem; the current name value stays
Hello. -/
theorem C3_apply_only_translatable_no_fallback_witness :
    apply_translations envH [⟨7, "1", "info", "fr", "X"⟩] [("fr", "French")]
      "en" (.obj 0) [] (some "fr") = .ok envH ∧
    attrOf envH 0 "name" = some "Hello" := by
  have hg : _get_instance_groups envH (.obj 0) (_get_relations_hierarchy []) =
      .ok [(7, [("1", 0)])] := by
    rw [_get_instance_groups, _fill_entity]
    simp [_fill_objs, _fill_obj, _fill_obj_relations, _get_entity_details,
      pyRegister, deref, modelD, elemsOf, setdefaultOuter, registerObj,
      upsertA, lookupNat, lookupA, relValueOf, dObj, dModel, envH,
      _get_relations_hierarchy]
    decide
  have hts : _get_translations [⟨7, "1", "info", "fr", "X"⟩] [("fr", "French")]
      "en" [(7, [("1", 0)])] (some "fr") = .ok [⟨7, "1", "info", "fr", "X"⟩] := by
    simp [_get_translations, _get_standard_language, langScan, pySplitDash,
      splitSep1, translationFilter, groupPairs]
  have happly : apply_translations envH [⟨7, "1", "info", "fr", "X"⟩]
      [("fr", "French")] "en" (.obj 0) [] (some "fr") = .ok envH := by
    rw [apply_translations, hg]
    simp [hts, applyLoop, lookupNat, lookupA, modelD, deref, envH, dObj, dModel]
  have hframe := ((C3_apply_only_translatable_no_fallback envH
    [⟨7, "1", "info", "fr", "X"⟩] [("fr", "French")] "en" (.obj 0) [] (some "fr")
    envH happly).1 [(7, [("1", 0)])] [⟨7, "1", "info", "fr", "X"⟩] hg hts).1 0 "name"
    (by
      intro t ht hcon
      rw [List.mem_singleton] at ht
      subst ht
      exact absurd hcon.2 (by decide))
  exact ⟨happly, hframe.symm.trans (by decide)⟩

/-! Section: Claim C2: full replace-on-write in update_translations -/
theorem norm_mem (registry : List (String × String)) (active : String)
    (lang0 : Option String) (lang : String)
    (h : _get_standard_language registry active lang0 = .ok lang) :
    lang ∈ registry.map Prod.fst := by
  simp only [_get_standard_language] at h
  split at h
  · next h1 =>
    injection h with h2
    subst h2
    exact (langScan_fst _ _ registry false).mp h1
  · split at h
    · next h1 h2 =>
      injection h with h3
      subst h3
      have hnl := fun hm => h1 ((langScan_fst _ _ registry false).mpr hm)
      rw [langScan_snd _ _ registry false hnl] at h2
      simpa using h2
    · exact Except.noConfusion h

theorem norm_exact (registry : List (String × String)) (active lang : String)
    (hne : lang ≠ "") (hmem : lang ∈ registry.map Prod.fst) :
    _get_standard_language registry active (some lang) = .ok lang := by
  simp only [_get_standard_language, if_neg hne]
  rw [if_pos ((langScan_fst lang _ registry false).mpr hmem)]

theorem lookupNat_none {β : Type} :
    ∀ (l : List (Nat × β)) (k : Nat), lookupNat l k = none → k ∉ l.map Prod.fst
  | [], k, _ => by simp
  | (a, b) :: rest, k, h => by
    rw [lookupNat] at h
    by_cases hak : a = k
    · rw [if_pos hak] at h
      exact Option.noConfusion h
    · rw [if_neg hak] at h
      have := lookupNat_none rest k h
      simp only [List.map_cons, List.mem_cons]
      rintro (h2 | h2)
      · exact hak h2.symm
      · exact this h2

theorem setdefaultOuter_good (g : Groups) (ct : Nat) (hG : GoodG g) :
    GoodG (setdefaultOuter g ct) := by
  rw [setdefaultOuter]
  rcases hl : lookupNat g ct with _ | b
  · constructor
    · rw [List.map_append]
      rw [List.nodup_append]
      refine ⟨hG.1, List.nodup_singleton ct, ?_⟩
      intro a ha hmem
      simp only [List.map_cons, List.map_nil, List.mem_singleton] at hmem
      exact lookupNat_none g ct hl (hmem ▸ ha)
    · intro p hp
      rcases List.mem_append.mp hp with h2 | h2
      · exact hG.2 p h2
      · rw [List.mem_singleton] at h2
        subst h2
        simp
  · exact hG

theorem upsertA_keys {β : Type} (k : String) (v : β) :
    ∀ l : List (String × β),
      (upsertA l k v).map Prod.fst =
        if k ∈ l.map Prod.fst then l.map Prod.fst else l.map Prod.fst ++ [k]
  | [] => by simp [upsertA]
  | (a, w) :: rest => by
    rw [upsertA]
    by_cases hak : a = k
    · subst hak
      simp
    · rw [if_neg hak]
      have hk2 : ¬k = a := fun hh => hak hh.symm
      simp only [List.map_cons, List.mem_cons]
      rw [upsertA_keys k v rest]
      by_cases hm : k ∈ rest.map Prod.fst <;> simp [hm, hk2]

theorem upsertA_nodup {β : Type} (k : String) (v : β) (l : List (String × β))
    (h : (l.map Prod.fst).Nodup) : ((upsertA l k v).map Prod.fst).Nodup := by
  rw [upsertA_keys]
  by_cases hm : k ∈ l.map Prod.fst
  · rwa [if_pos hm]
  · rw [if_neg hm, List.nodup_append]
    refine ⟨h, List.nodup_singleton k, ?_⟩
    intro a ha hmem
    rw [List.mem_singleton] at hmem
    subst hmem
    exact hm ha

theorem registerObj_keys (g : Groups) (ct : Nat) (oid : String) (r : Nat) :
    (registerObj g ct oid r).map Prod.fst = g.map Prod.fst := by
  induction g with
  | nil => rfl
  | cons p rest ih =>
    rw [registerObj] at ih ⊢
    simp only [List.map_cons, List.map_cons]
    by_cases hp : p.1 = ct <;> simp [hp, ih]

theorem registerObj_good (g : Groups) (ct : Nat) (oid : String) (r : Nat)
    (hG : GoodG g) : GoodG (registerObj g ct oid r) := by
  constructor
  · rw [registerObj_keys]
    exact hG.1
  · intro p hp
    rw [registerObj] at hp
    obtain ⟨q, hq, hpq⟩ := List.mem_map.mp hp
    by_cases hqc : q.1 = ct
    · rw [if_pos hqc] at hpq
      subst hpq
      exact upsertA_nodup oid r q.2 (hG.2 q hq)
    · rw [if_neg hqc] at hpq
      subst hpq
      exact hG.2 q hq

theorem pyRegister_good (env : Env) (e : PyVal) (ct : Nat) (g gr : Groups)
    (h : pyRegister env e ct g = .ok gr) (hG : GoodG g) : GoodG gr := by
  cases e with
  | obj r =>
    injection h with h2
    subst h2
    exact registerObj_good g ct _ r hG
  | scalar n => exact Except.noConfusion h
  | listLit xs => exact Except.noConfusion h

theorem good_walk : ∀ (k : Nat) (hier : HList), sizeH hier ≤ k →
    ((∀ env e m g g2, _fill_obj_relations env e m hier g = .ok g2 →
        GoodG g → GoodG g2) ∧
     (∀ env e m ct included g g2, _fill_obj env e m ct hier included g = .ok g2 →
        GoodG g → GoodG g2) ∧
     (∀ env elems m ct included g g2,
        _fill_objs env elems m ct hier included g = .ok g2 → GoodG g → GoodG g2) ∧
     (∀ env e included g g2, _fill_entity env e hier included g = .ok g2 →
        GoodG g → GoodG g2)) := by
  intro k
  induction k using Nat.strong_induction_on with
  | _ k IH =>
    intro hier hsz
    have hrels : ∀ env e m g g2, _fill_obj_relations env e m hier g = .ok g2 →
        GoodG g → GoodG g2 := by
      intro env e m g g2 h hG
      cases hier with
      | nil =>
        rw [_fill_obj_relations] at h
        injection h with h2
        subst h2
        exact hG
      | cons rel detail rest =>
        have hszr : sizeH rest < k := by
          have hlt : sizeH rest < sizeH (.cons rel detail rest) := by
            simp only [sizeH_cons, sizeN_eq]
            omega
          omega
        have hszd : sizeH detail.relations < k := by
          have hlt : sizeH detail.relations < sizeH (.cons rel detail rest) := by
            simp only [sizeH_cons, sizeN_eq]
            omega
          omega
        have IHrest := IH (sizeH rest) hszr rest le_rfl
        have IHdet := IH (sizeH detail.relations) hszd detail.relations le_rfl
        rw [_fill_obj_relations] at h
        by_cases hm : rel ∈ (modelD env m).relNames
        · rw [if_pos hm] at h
          cases hv : relValueOf env e rel with
          | null =>
            simp only [hv] at h
            exact IHrest.1 env e m g g2 h hG
          | single r =>
            simp only [hv] at h
            rcases hfe : _fill_entity env (.obj r) detail.relations
                detail.included g with e2 | gmid <;> simp only [hfe] at h
            · exact Except.noConfusion h
            · exact IHrest.1 env e m gmid g2 h
                (IHdet.2.2.2 env (.obj r) detail.included g gmid hfe hG)
          | many rs =>
            simp only [hv] at h
            rcases hfe : _fill_entity env (.listLit (rs.map .obj)) detail.relations
                detail.included g with e2 | gmid <;> simp only [hfe] at h
            · exact Except.noConfusion h
            · exact IHrest.1 env e m gmid g2 h
                (IHdet.2.2.2 env (.listLit (rs.map .obj)) detail.included g gmid
                  hfe hG)
        · rw [if_neg hm] at h
          exact Except.noConfusion h
    have hobj : ∀ env e m ct included g g2,
        _fill_obj env e m ct hier included g = .ok g2 → GoodG g → GoodG g2 := by
      intro env e m ct included g g2 h hG
      rw [_fill_obj] at h
      by_cases hinc : included = true
      · rw [hinc, if_pos rfl] at h
        rcases hreg : pyRegister env e ct g with e2 | gr <;> simp only [hreg] at h
        · exact Except.noConfusion h
        · exact hrels env e m gr g2 h (pyRegister_good env e ct g gr hreg hG)
      · rw [Bool.not_eq_true] at hinc
        rw [hinc] at h
        simp only [Bool.false_eq_true, if_false] at h
        exact hrels env e m g g2 h hG
    have hobjs : ∀ env elems m ct included g g2,
        _fill_objs env elems m ct hier included g = .ok g2 → GoodG g → GoodG g2 := by
      intro env elems
      induction elems with
      | nil =>
        intro m ct included g g2 h hG
        rw [_fill_objs] at h
        injection h with h2
        subst h2
        exact hG
      | cons e rest ihe =>
        intro m ct included g g2 h hG
        rw [_fill_objs] at h
        rcases ho : _fill_obj env e m ct hier included g with e2 | gmid <;>
          simp only [ho] at h
        · exact Except.noConfusion h
        · exact ihe m ct included gmid g2 h
            (hobj env e m ct included g gmid ho hG)
    have hentity : ∀ env e included g g2,
        _fill_entity env e hier included g = .ok g2 → GoodG g → GoodG g2 := by
      intro env e included g g2 h hG
      rw [_fill_entity] at h
      rcases hd : _get_entity_details env e with err | pair <;> simp only [hd] at h
      · exact Except.noConfusion h
      · obtain ⟨it, mo⟩ := pair
        cases mo with
        | none =>
          injection h with h2
          subst h2
          exact hG
        | some m =>
          simp only [] at h
          by_cases hcond : included = true ∧ ¬(modelD env m).translatable = true
          · rw [if_pos hcond] at h
            exact Except.noConfusion h
          · rw [if_neg hcond] at h
            have hG1 : GoodG (if included = true
                then setdefaultOuter g (modelD env m).ctId else g) := by
              split
              · exact setdefaultOuter_good g _ hG
              · exact hG
            exact hobjs env (elemsOf e) m (modelD env m).ctId included _ g2 h hG1
    exact ⟨hrels, hobj, hobjs, hentity⟩

theorem groups_good (env : Env) (entity : PyVal) (hierarchy : HList)
    (groups : Groups)
    (h : _get_instance_groups env entity hierarchy = .ok groups) : GoodG groups := by
  rw [_get_instance_groups] at h
  exact (good_walk (sizeH hierarchy) hierarchy le_rfl).2.2.2 env entity true []
    groups h ⟨List.nodup_nil, by simp⟩

theorem stage_mem (env : Env) (groups : Groups) (lang : String) (t : Translation) :
    t ∈ stageNew env groups lang ↔
      ∃ ct objs oid r, (ct, objs) ∈ groups ∧ (oid, r) ∈ objs ∧
        t.field ∈ (modelD env (deref env r).model).tfields ∧
        attrOf env r t.field = some t.text ∧ t.text ≠ "" ∧
        t = ⟨ct, oid, t.field, lang, t.text⟩ := by
  simp only [stageNew, List.mem_flatMap, List.mem_filterMap]
  constructor
  · rintro ⟨p, hp, q, hq, field, hf, hcell⟩
    rcases ha : attrOf env q.2 field with _ | text <;> simp only [ha] at hcell
    · exact Option.noConfusion hcell
    · by_cases he : text = ""
      · rw [if_pos he] at hcell
        exact Option.noConfusion hcell
      · rw [if_neg he] at hcell
        injection hcell with h2
        subst h2
        exact ⟨p.1, p.2, q.1, q.2, by simpa using hp, by simpa using hq,
          hf, ha, he, rfl⟩
  · rintro ⟨ct, objs, oid, r, hg, ho, hf, ha, hne, ht⟩
    refine ⟨(ct, objs), hg, (oid, r), ho, t.field, hf, ?_⟩
    simp only [ha, if_neg hne]
    exact congrArg some ht.symm

theorem stage_filter_true (env : Env) (groups : Groups) (lang : String)
    (t : Translation) (h : t ∈ stageNew env groups lang) :
    t.language = lang ∧ pairMatch groups t = true := by
  obtain ⟨ct, objs, oid, r, hg, ho, _, _, _, ht⟩ := (stage_mem env groups lang t).mp h
  constructor
  · rw [ht]
  · rw [pairMatch, List.any_eq_true]
    refine ⟨(ct, oid), ?_, ?_⟩
    · rw [groupPairs, List.mem_flatMap]
      exact ⟨(ct, objs), hg, List.mem_map.mpr ⟨(oid, r), ho, rfl⟩⟩
    · rw [ht]
      simp

theorem stage_ct_mem (env : Env) (lang : String) (ct : Nat)
    (objs : List (String × Nat)) (t : Translation)
    (h : t ∈ objs.flatMap (fun q =>
      (modelD env (deref env q.2).model).tfields.filterMap (fun field =>
        match attrOf env q.2 field with
        | some text => if text = "" then none else some ⟨ct, q.1, field, lang, text⟩
        | none => none))) :
    t.content_type_id = ct ∧ t.object_id ∈ objs.map Prod.fst := by
  rw [List.mem_flatMap] at h
  obtain ⟨q, hq, hcell⟩ := h
  rw [List.mem_filterMap] at hcell
  obtain ⟨field, _, hcell⟩ := hcell
  rcases ha : attrOf env q.2 field with _ | text <;> simp only [ha] at hcell
  · exact Option.noConfusion hcell
  · by_cases he : text = ""
    · rw [if_pos he] at hcell
      exact Option.noConfusion hcell
    · rw [if_neg he] at hcell
      injection hcell with h2
      subst h2
      exact ⟨rfl, List.mem_map.mpr ⟨q, hq, rfl⟩⟩

theorem cell_oid (env : Env) (lang : String) (ct : Nat) (q : String × Nat)
    (t : Translation)
    (h : t ∈ (modelD env (deref env q.2).model).tfields.filterMap (fun field =>
      match attrOf env q.2 field with
      | some text => if text = "" then none else some ⟨ct, q.1, field, lang, text⟩
      | none => none)) :
    t.object_id = q.1 := by
  rw [List.mem_filterMap] at h
  obtain ⟨field, _, hcell⟩ := h
  rcases ha : attrOf env q.2 field with _ | text <;> simp only [ha] at hcell
  · exact Option.noConfusion hcell
  · by_cases he : text = ""
    · rw [if_pos he] at hcell
      exact Option.noConfusion hcell
    · rw [if_neg he] at hcell
      injection hcell with h2
      subst h2
      rfl

theorem getD_mem_or {α : Type} :
    ∀ (l : List α) (i : Nat) (d : α), l.getD i d ∈ l ∨ l.getD i d = d
  | [], _, _ => Or.inr rfl
  | a :: l, 0, d => Or.inl (by simp)
  | a :: l, i + 1, d => by
    rw [List.getD_cons_succ]
    rcases getD_mem_or l i d with h | h
    · exact Or.inl (List.mem_cons_of_mem a h)
    · exact Or.inr h

theorem modelD_tfields_nodup (env : Env)
    (htf : ∀ md ∈ env.schema, md.tfields.Nodup) (m : Nat) :
    (modelD env m).tfields.Nodup := by
  rcases getD_mem_or env.schema m dModel with h | h
  · exact htf _ h
  · rw [modelD, h]
    simp [dModel]

theorem stage_pairwise (env : Env) (groups : Groups) (lang : String)
    (hG : GoodG groups) (htf : ∀ md ∈ env.schema, md.tfields.Nodup) :
    List.Pairwise (fun a b : Translation =>
      (a.content_type_id, a.object_id, a.field) ≠
      (b.content_type_id, b.object_id, b.field)) (stageNew env groups lang) := by
  rw [stageNew, List.pairwise_flatMap]
  constructor
  · intro p hp
    rw [List.pairwise_flatMap]
    constructor
    · intro q hq
      have hnd := modelD_tfields_nodup env htf (deref env q.2).model
      have hpw : List.Pairwise (fun a b : String => a ≠ b)
          (modelD env (deref env q.2).model).tfields := hnd
      refine List.Pairwise.filterMap _ ?_ hpw
      intro a b hab x hx y hy
      rcases hax : attrOf env q.2 a with _ | ta <;> simp only [hax] at hx
      · exact Option.noConfusion hx
      rcases hay : attrOf env q.2 b with _ | tb <;> simp only [hay] at hy
      · exact Option.noConfusion hy
      by_cases hea : ta = ""
      · rw [if_pos hea] at hx
        exact Option.noConfusion hx
      by_cases heb : tb = ""
      · rw [if_neg hea] at hx
        rw [if_pos heb] at hy
        exact Option.noConfusion hy
      rw [if_neg hea] at hx
      rw [if_neg heb] at hy
      injection hx with hx2
      injection hy with hy2
      subst hx2
      subst hy2
      simp [hab]
    · have hnd := hG.2 p hp
      have hpw : List.Pairwise (fun a b : String × Nat => a.1 ≠ b.1) p.2 := by
        rw [← List.pairwise_map]
        exact hnd
      refine hpw.imp_of_mem ?_
      intro q1 q2 hq1 hq2 hne x hx y hy
      have hx2 := cell_oid env lang p.1 q1 x hx
      have hy2 := cell_oid env lang p.1 q2 y hy
      intro hkey
      injection hkey with hk1 hrest
      injection hrest with hk2 hk3
      exact hne (hx2 ▸ hy2 ▸ hk2)
  · have hpw : List.Pairwise (fun a b : Nat × List (String × Nat) => a.1 ≠ b.1)
        groups := by
      rw [← List.pairwise_map]
      exact hG.1
    refine hpw.imp_of_mem ?_
    intro p1 p2 hp1 hp2 hne x hx y hy
    have hx2 := (stage_ct_mem env lang p1.1 p1.2 x hx).1
    have hy2 := (stage_ct_mem env lang p2.1 p2.2 y hy).1
    intro hkey
    injection hkey with hk1 hrest
    exact hne (hx2 ▸ hy2 ▸ hk1)

/-- Claim C2: update_translations performs full replace-on-write. After a
successful run, the rows of the resulting store that belong to the purview
instances in the normalized language are exactly the staged set; the
staged set holds one row per included instance and translatable field
whose current value is truthy, carrying that current value (a falsy field
stages nothing, and its prior row is deleted and not replaced since it
matched the delete filter); and the staged set has no two rows with the
same (content type, object id, field) key, so at most one row per key and
language remains. The registry is assumed not to register the empty tag
and every type is assumed to declare its translatable fields without
duplicates. -/
theorem C2_update_full_replace_on_write
    (env : Env) (store : Store) (registry : List (String × String))
    (active : String) (entity : PyVal) (relations : List String)
    (lang0 : Option String) (store1 : Store)
    (htf : ∀ md ∈ env.schema, md.tfields.Nodup)
    (hreg : "" ∉ registry.map Prod.fst)
    (h : update_translations env store registry active entity relations lang0 =
      .ok store1) :
    ∀ lang groups,
      _get_standard_language registry active lang0 = .ok lang →
      _get_instance_groups env entity (_get_relations_hierarchy relations) =
        .ok groups →
      (store1.filter (fun t => t.language == lang && pairMatch groups t) =
        stageNew env groups lang) ∧
      (∀ t, t ∈ stageNew env groups lang ↔
        ∃ ct objs oid r, (ct, objs) ∈ groups ∧ (oid, r) ∈ objs ∧
          t.field ∈ (modelD env (deref env r).model).tfields ∧
          attrOf env r t.field = some t.text ∧ t.text ≠ "" ∧
          t = ⟨ct, oid, t.field, lang, t.text⟩) ∧
      List.Pairwise (fun a b : Translation =>
        (a.content_type_id, a.object_id, a.field) ≠
        (b.content_type_id, b.object_id, b.field)) (stageNew env groups lang) := by
  intro lang groups hlang hg
  have hmem := norm_mem registry active lang0 lang hlang
  have hne : lang ≠ "" := fun hh => hreg (hh ▸ hmem)
  have hlang2 := norm_exact registry active lang hne hmem
  rw [update_translations] at h
  simp only [hlang, hg, hlang2] at h
  injection h with h2
  subst h2
  refine ⟨?_, fun t => stage_mem env groups lang t,
    stage_pairwise env groups lang (groups_good env entity _ groups hg) htf⟩
  rw [List.filter_append]
  have hnil : (store.filter (fun t => !(translationFilter groups lang t))).filter
      (fun t => t.language == lang && pairMatch groups t) = [] := by
    rw [List.filter_eq_nil_iff]
    intro t ht hpred
    rw [List.mem_filter] at ht
    obtain ⟨_, hdel⟩ := ht
    rw [Bool.not_eq_eq_eq_not, Bool.not_true] at hdel
    rw [Bool.and_eq_true] at hpred
    obtain ⟨hl, hpm⟩ := hpred
    have hm : (groupPairs groups).isEmpty = false := by
      rcases Bool.eq_false_or_eq_true (groupPairs groups).isEmpty with he | he
      · rw [pairMatch, List.isEmpty_iff.mp he] at hpm
        simp at hpm
      · exact he
    rw [translationFilter, hm] at hdel
    rw [pairMatch] at hpm
    simp [hl, hpm] at hdel
  have hself : (stageNew env groups lang).filter
      (fun t => t.language == lang && pairMatch groups t) =
      stageNew env groups lang := by
    rw [List.filter_eq_self]
    intro t ht
    obtain ⟨hl, hpm⟩ := stage_filter_true env groups lang t ht
    simp [hl, hpm]
  rw [hnil, hself, List.nil_append]

/-- Witness for C2: updating in fr deletes both prior rows of the instance
(including the denonym row, which is not replaced because the current
value is falsy), keeps the unrelated row of another content type, and
inserts exactly the one staged name row. -/
theorem C2_update_full_replace_on_write_witness :
    update_translations envW
      [⟨7, "1", "name", "fr", "OldName"⟩, ⟨7, "1", "denonym", "fr", "OldDen"⟩,
       ⟨9, "2", "name", "fr", "Other"⟩]
      [("fr", "French")] "en" (.obj 0) [] (some "fr") =
      .ok [⟨9, "2", "name", "fr", "Other"⟩, ⟨7, "1", "name", "fr", "Bonjour"⟩] ∧
    ([⟨9, "2", "name", "fr", "Other"⟩,
      ⟨7, "1", "name", "fr", "Bonjour"⟩] : Store).filter
      (fun t => t.language == "fr" && pairMatch [(7, [("1", 0)])] t) =
      stageNew envW [(7, [("1", 0)])] "fr" ∧
    stageNew envW [(7, [("1", 0)])] "fr" = [⟨7, "1", "name", "fr", "Bonjour"⟩] := by
  have hg : _get_instance_groups envW (.obj 0) (_get_relations_hierarchy []) =
      .ok [(7, [("1", 0)])] := by
    rw [_get_instance_groups, _fill_entity]
    simp [_fill_objs, _fill_obj, _fill_obj_relations, _get_entity_details,
      pyRegister, deref, modelD, elemsOf, setdefaultOuter, registerObj,
      upsertA, lookupNat, lookupA, relValueOf, dObj, dModel, envW,
      _get_relations_hierarchy]
    decide
  have hlang : _get_standard_language [("fr", "French")] "en" (some "fr") =
      .ok "fr" := rfl
  have hupd : update_translations envW
      [⟨7, "1", "name", "fr", "OldName"⟩, ⟨7, "1", "denonym", "fr", "OldDen"⟩,
       ⟨9, "2", "name", "fr", "Other"⟩]
      [("fr", "French")] "en" (.obj 0) [] (some "fr") =
      .ok [⟨9, "2", "name", "fr", "Other"⟩, ⟨7, "1", "name", "fr", "Bonjour"⟩] := by
    rw [update_translations, hg]
    simp [hlang, translationFilter, groupPairs, stageNew, attrOf, modelD,
      deref, envW, lookupA, dObj, dModel]
  refine ⟨hupd, ?_, by decide⟩
  have hmain := (C2_update_full_replace_on_write envW
    [⟨7, "1", "name", "fr", "OldName"⟩, ⟨7, "1", "denonym", "fr", "OldDen"⟩,
     ⟨9, "2", "name", "fr", "Other"⟩]
    [("fr", "French")] "en" (.obj 0) [] (some "fr")
    [⟨9, "2", "name", "fr", "Other"⟩, ⟨7, "1", "name", "fr", "Bonjour"⟩]
    (by decide) (by decide) hupd "fr" [(7, [("1", 0)])] hlang hg).1
  exact hmain
